import Mathlib

/-!
Verification of the PhishingGuard text-classification pipeline.

The Python sources embedded here:
- `src/train_phishing.py` / `src/classify_email.py`: `preprocess_text`
  (regex-based normalizer), `load_dataset`, `get_sample_dataset`,
  `classify_email`.
- The TF-IDF vectorizer and multinomial naive-Bayes classifier are library
  calls in the source; their `transform`, `predict` and `predict_proba`
  are modelled from the specification (sections 4.2 and 4.3).

Strings are modelled as lists of characters; the Python regex character
classes are modelled over their ASCII meaning. Stored model parameters
(idf weights, log-priors, per-feature log-probabilities) are exact
rationals or reals; probability arithmetic is exact real arithmetic.
-/

namespace PhishingGuard

/-! ### Character classes (ASCII reading of the Python regex classes) -/

/-- Python regex class backslash-s over ASCII: space, tab, newline,
carriage return, vertical tab, form feed. -/
def isSpaceChar (c : Char) : Bool :=
  c == ' ' || c == '\t' || c == '\n' || c == '\r' || c == '\x0b' || c == '\x0c'

/-- Python regex class backslash-w over ASCII: alphanumeric or underscore. -/
def isWordChar (c : Char) : Bool :=
  c.isAlphanum || c == '_'

/-! ### Character facts used throughout (ASCII code-point reasoning) -/

lemma char_eq_of_toNat_eq {c d : Char} (h : c.toNat = d.toNat) : c = d := by
  have h2 : Char.ofNat c.toNat = Char.ofNat d.toNat := by rw [h]
  rwa [Char.ofNat_toNat, Char.ofNat_toNat] at h2

lemma toLower_eq_self (c : Char) (h : ¬(65 ≤ c.toNat ∧ c.toNat ≤ 90)) :
    Char.toLower c = c := by
  unfold Char.toLower
  rw [if_neg h]

lemma toLower_toNat_of_upper (c : Char) (h1 : 65 ≤ c.toNat) (h2 : c.toNat ≤ 90) :
    (Char.toLower c).toNat = c.toNat + 32 := by
  unfold Char.toLower
  rw [if_pos ⟨h1, h2⟩]
  unfold Char.ofNat
  split
  · rfl
  · next h => exact absurd (Or.inl (by omega)) h

lemma toLower_cases (c : Char) :
    Char.toLower c = c ∨
    (65 ≤ c.toNat ∧ c.toNat ≤ 90 ∧ (Char.toLower c).toNat = c.toNat + 32) := by
  by_cases h : 65 ≤ c.toNat ∧ c.toNat ≤ 90
  · exact Or.inr ⟨h.1, h.2, toLower_toNat_of_upper c h.1 h.2⟩
  · exact Or.inl (toLower_eq_self c h)

lemma char_eq_code (c : Char) (n : Nat) (d : Char) (h : c.toNat = n)
    (hd : d.toNat = n) : c = d :=
  char_eq_of_toNat_eq (by rw [h, hd])

lemma isSpaceChar_iff (c : Char) : isSpaceChar c = true ↔
    c.toNat = 32 ∨ c.toNat = 9 ∨ c.toNat = 10 ∨ c.toNat = 13 ∨
    c.toNat = 11 ∨ c.toNat = 12 := by
  unfold isSpaceChar
  simp only [Bool.or_eq_true, beq_iff_eq]
  constructor
  · rintro (((((rfl | rfl) | rfl) | rfl) | rfl) | rfl) <;> decide
  · rintro (h | h | h | h | h | h)
    · exact Or.inl (Or.inl (Or.inl (Or.inl (Or.inl (char_eq_code c 32 ' ' h (by decide))))))
    · exact Or.inl (Or.inl (Or.inl (Or.inl (Or.inr (char_eq_code c 9 '\t' h (by decide))))))
    · exact Or.inl (Or.inl (Or.inl (Or.inr (char_eq_code c 10 '\n' h (by decide)))))
    · exact Or.inl (Or.inl (Or.inr (char_eq_code c 13 '\r' h (by decide))))
    · exact Or.inl (Or.inr (char_eq_code c 11 '\x0b' h (by decide)))
    · exact Or.inr (char_eq_code c 12 '\x0c' h (by decide))

lemma isDigit_iff (c : Char) : c.isDigit = true ↔ 48 ≤ c.toNat ∧ c.toNat ≤ 57 := by
  simp only [Char.isDigit, Bool.and_eq_true, decide_eq_true_eq]
  constructor
  · intro h
    exact ⟨h.1, h.2⟩
  · intro h
    exact ⟨h.1, h.2⟩

lemma isWordChar_iff (c : Char) : isWordChar c = true ↔
    (48 ≤ c.toNat ∧ c.toNat ≤ 57) ∨ (65 ≤ c.toNat ∧ c.toNat ≤ 90) ∨
    (97 ≤ c.toNat ∧ c.toNat ≤ 122) ∨ c.toNat = 95 := by
  simp only [isWordChar, Char.isAlphanum, Char.isAlpha, Char.isUpper, Char.isLower,
    Char.isDigit, Bool.or_eq_true, Bool.and_eq_true, decide_eq_true_eq, beq_iff_eq]
  constructor
  · rintro (((⟨h1, h2⟩ | ⟨h1, h2⟩) | ⟨h1, h2⟩) | rfl)
    · exact Or.inr (Or.inl ⟨h1, h2⟩)
    · exact Or.inr (Or.inr (Or.inl ⟨h1, h2⟩))
    · exact Or.inl ⟨h1, h2⟩
    · exact Or.inr (Or.inr (Or.inr (by decide)))
  · rintro (⟨h1, h2⟩ | ⟨h1, h2⟩ | ⟨h1, h2⟩ | h)
    · exact Or.inl (Or.inr ⟨h1, h2⟩)
    · exact Or.inl (Or.inl (Or.inl ⟨h1, h2⟩))
    · exact Or.inl (Or.inl (Or.inr ⟨h1, h2⟩))
    · exact Or.inr (char_eq_code c 95 '_' h (by decide))

lemma toLower_idem (c : Char) :
    Char.toLower (Char.toLower c) = Char.toLower c := by
  rcases toLower_cases c with h | ⟨h1, h2, h3⟩
  · rw [h, h]
  · apply toLower_eq_self
    omega

lemma isSpaceChar_toLower (c : Char) :
    isSpaceChar (Char.toLower c) = isSpaceChar c := by
  rcases toLower_cases c with h | ⟨h1, h2, h3⟩
  · rw [h]
  · have hl : isSpaceChar (Char.toLower c) = false := by
      rw [← Bool.not_eq_true, isSpaceChar_iff]
      omega
    have hr : isSpaceChar c = false := by
      rw [← Bool.not_eq_true, isSpaceChar_iff]
      omega
    rw [hl, hr]

lemma isDigit_toLower (c : Char) :
    (Char.toLower c).isDigit = c.isDigit := by
  rcases toLower_cases c with h | ⟨h1, h2, h3⟩
  · rw [h]
  · have hl : (Char.toLower c).isDigit = false := by
      rw [← Bool.not_eq_true, isDigit_iff]
      omega
    have hr : c.isDigit = false := by
      rw [← Bool.not_eq_true, isDigit_iff]
      omega
    rw [hl, hr]

lemma isWordChar_toLower (c : Char) (h : isWordChar c = true) :
    isWordChar (Char.toLower c) = true := by
  rcases toLower_cases c with he | ⟨h1, h2, h3⟩
  · rwa [he]
  · rw [isWordChar_iff]
    omega

/-- Lowercasing reflects characters outside the lowercase-letter range:
if the target code point is not in 97-122, the original character was
that same character. -/
lemma toLower_eq_nonletter (c d : Char) (hd : d.toNat < 97 ∨ 122 < d.toNat)
    (h : Char.toLower c = d) : c = d := by
  rcases toLower_cases c with he | ⟨h1, h2, h3⟩
  · rwa [he] at h
  · exfalso
    rw [h] at h3
    omega

lemma isSpaceChar_false_of_word (c : Char) (h : isWordChar c = true) :
    isSpaceChar c = false := by
  rw [isWordChar_iff] at h
  rw [← Bool.not_eq_true, isSpaceChar_iff]
  omega

lemma isSpaceChar_false_of_digit (c : Char) (h : c.isDigit = true) :
    isSpaceChar c = false := by
  rw [isDigit_iff] at h
  rw [← Bool.not_eq_true, isSpaceChar_iff]
  omega

/-! ### The normalizer, from `preprocess_text` in `src/classify_email.py`
lines 12-22 (identical copy in `src/train_phishing.py` lines 18-28).

Each `re.sub` pass is a left-to-right scanner. A two-state scanner
(`Bool` flag = currently inside a span consumed by a match) gives a
structural recursion equivalent to the regex engine's behaviour:
a match consumes greedily to the end of the current non-space run,
and scanning resumes after the consumed span. -/

/-- Head of the list exists and is not whitespace. -/
def headNonspace : List Char → Bool
  | [] => false
  | d :: _ => !isSpaceChar d

/-- Match test for the pattern in line 17: at the current position the
regex http-then-nonspace or www-then-nonspace matches (the third
alternative https-then-nonspace is subsumed by the first, because after
the literal "http" the character "s" already satisfies the nonspace
requirement). -/
def urlStart (l : List Char) : Bool :=
  (decide (l.take 4 = ['h', 't', 't', 'p']) && headNonspace (l.drop 4)) ||
  (decide (l.take 3 = ['w', 'w', 'w']) && headNonspace (l.drop 3))

/-- One pass of the first substitution: URL-like spans become "URL".
State `true`: inside a span already consumed by a match, skipped until
the next whitespace character. -/
def subUrlAux : Bool → List Char → List Char
  | _, [] => []
  | true, c :: cs => if isSpaceChar c then c :: subUrlAux false cs else subUrlAux true cs
  | false, c :: cs =>
    if urlStart (c :: cs) then 'U' :: 'R' :: 'L' :: subUrlAux true cs
    else c :: subUrlAux false cs

/-- The substitution on line 17 of `src/classify_email.py`. -/
def subUrl (l : List Char) : List Char := subUrlAux false l

/-- Match test for the pattern nonspace-run containing an at-sign
(line 18): the maximal non-space run starting here matches
nonspace-plus at nonspace-plus exactly when it has an at-sign that is
neither its first nor its last character. -/
def emailMatch (l : List Char) : Bool :=
  (((l.takeWhile fun d => !isSpaceChar d).drop 1).dropLast).contains '@'

/-- One pass of the second substitution: email-like runs become "EMAIL". -/
def subEmailAux : Bool → List Char → List Char
  | _, [] => []
  | true, c :: cs => if isSpaceChar c then c :: subEmailAux false cs else subEmailAux true cs
  | false, c :: cs =>
    if emailMatch (c :: cs) then 'E' :: 'M' :: 'A' :: 'I' :: 'L' :: subEmailAux true cs
    else c :: subEmailAux false cs

/-- The substitution on line 18 of `src/classify_email.py`. -/
def subEmail (l : List Char) : List Char := subEmailAux false l

/-- One pass of the third substitution: maximal digit runs become
"NUMBER" (line 19). -/
def subNumAux : Bool → List Char → List Char
  | _, [] => []
  | true, c :: cs => if c.isDigit then subNumAux true cs else c :: subNumAux false cs
  | false, c :: cs =>
    if c.isDigit then 'N' :: 'U' :: 'M' :: 'B' :: 'E' :: 'R' :: subNumAux true cs
    else c :: subNumAux false cs

/-- The substitution on line 19 of `src/classify_email.py`. -/
def subNum (l : List Char) : List Char := subNumAux false l

/-- The substitution on line 20: every character that is neither a word
character nor whitespace becomes a single space. -/
def subPunct (l : List Char) : List Char :=
  l.map fun c => if isWordChar c || isSpaceChar c then c else ' '

/-- One pass of the whitespace-collapsing substitution on line 21:
each maximal whitespace run becomes one space. -/
def collapseWsAux : Bool → List Char → List Char
  | _, [] => []
  | true, c :: cs => if isSpaceChar c then collapseWsAux true cs else c :: collapseWsAux false cs
  | false, c :: cs =>
    if isSpaceChar c then ' ' :: collapseWsAux true cs else c :: collapseWsAux false cs

/-- The substitution on line 21 of `src/classify_email.py`. -/
def collapseWs (l : List Char) : List Char := collapseWsAux false l

/-- Python `str.strip()`: drop leading and trailing whitespace. -/
def stripBoth (l : List Char) : List Char :=
  ((l.dropWhile isSpaceChar).reverse.dropWhile isSpaceChar).reverse

/-- The whole normalizer body applied to the character list of an actual
string: lowercase, then the five substitutions, then strip. -/
def preprocessList (l : List Char) : List Char :=
  stripBoth (collapseWs (subPunct (subNum (subEmail (subUrl (l.map Char.toLower))))))

/-- `preprocess_text` of `src/classify_email.py` lines 12-22 on string
input (the `isinstance` guard is handled by `preprocessVal` below). -/
def preprocess_text (s : String) : String :=
  ⟨preprocessList s.data⟩

/-- Python `str.lower()` (ASCII). -/
def pyLower (s : String) : String :=
  ⟨s.data.map Char.toLower⟩

/-- A Python value handed to `preprocess_text`: a string, `None`, or any
other non-string value. -/
inductive PyVal where
  | str (s : String)
  | pynone
  | other
deriving DecidableEq

/-- `preprocess_text` on an arbitrary Python value: the guard on lines
14-15 returns the empty string for every non-string input. -/
def preprocessVal : PyVal → String
  | .str s => preprocess_text s
  | .pynone => ""
  | .other => ""

/-! ### Vectorizer

Modelled from the spec: the TF-IDF vectorizer configured on lines
120-127 of `src/train_phishing.py` is a library call whose code is not
in the repository. Section 4.2 of the specification describes its
`transform`: tokenize the normalized text into unigrams and bigrams of
whitespace-delimited words excluding a fixed stopword list; multiply
each in-vocabulary term's count by its idf weight; ignore
out-of-vocabulary terms; L2-normalize, returning a zero vector
unchanged. -/

/-- Whitespace-delimited words of a character list (structural scanner
with an accumulator holding the current word reversed). -/
def wordsAux : List Char → List Char → List (List Char)
  | [], acc => if acc.isEmpty then [] else [acc.reverse]
  | c :: cs, acc =>
    if isSpaceChar c then
      if acc.isEmpty then wordsAux cs [] else acc.reverse :: wordsAux cs []
    else wordsAux cs (c :: acc)

/-- Whitespace-delimited words of a string. -/
def wordsOf (s : String) : List String :=
  (wordsAux s.data []).map fun w => ⟨w⟩

/-- Modelled from the spec (section 4.2, fit step 1 and `transform`):
unigrams and bigrams of the whitespace-delimited words that survive the
stopword filter. -/
def tokenize (stop : List String) (s : String) : List String :=
  let ws := (wordsOf s).filter fun w => decide (w ∉ stop)
  ws ++ List.zipWith (fun a b => a ++ " " ++ b) ws ws.tail

/-- Modelled from the spec: a fitted vectorizer. `features` pairs each
vocabulary term with its idf weight, in vocabulary-index order, so the
vocabulary size is `features.length`; `stop` is the fixed stopword
list. -/
structure VecModel where
  features : List (String × ℚ)
  stop : List String

/-- The vocabulary terms of a fitted vectorizer. -/
def VecModel.vocabTerms (m : VecModel) : List String :=
  m.features.map Prod.fst

/-- Modelled from the spec: the raw (pre-normalization) tf-idf vector of
a token multiset: per feature, term count in the document times the
feature's idf weight. -/
def rawVecT (m : VecModel) (toks : List String) : List ℚ :=
  m.features.map fun f => (toks.count f.1 : ℚ) * f.2

/-- Sum of squares of a rational vector (the squared Euclidean norm,
exact). -/
def sumSq (v : List ℚ) : ℚ :=
  (v.map fun x => x * x).sum

/-- Modelled from the spec: L2 normalization of the raw vector; a vector
of Euclidean norm zero is returned unchanged. -/
noncomputable def transformToks (m : VecModel) (toks : List String) : List ℝ :=
  if sumSq (rawVecT m toks) = 0 then (rawVecT m toks).map fun x : ℚ => (x : ℝ)
  else (rawVecT m toks).map fun x : ℚ =>
    (x : ℝ) / Real.sqrt ((sumSq (rawVecT m toks) : ℚ) : ℝ)

/-- Modelled from the spec: `transform` on a normalized text. -/
noncomputable def transform (m : VecModel) (s : String) : List ℝ :=
  transformToks m (tokenize m.stop s)

/-- Euclidean norm of a real vector. -/
noncomputable def l2norm (w : List ℝ) : ℝ :=
  Real.sqrt (w.map fun x => x * x).sum

/-! ### Classifier

Modelled from the spec: the multinomial naive-Bayes classifier
(`MultinomialNB(alpha=0.1)` on line 128 of `src/train_phishing.py`) is a
library call. Section 4.3 of the specification describes `predict_proba`
(joint log-score per class, then a numerically stable softmax that
subtracts the maximum log-score) and `predict` (argmax with ties broken
toward the lowest class index, class 0). The fitted parameters (log
priors and per-feature log-probabilities) are stored reals. -/

/-- Modelled from the spec: a fitted two-class naive-Bayes model. -/
structure NBModel where
  logPrior0 : ℝ
  logPrior1 : ℝ
  flp0 : List ℝ
  flp1 : List ℝ

/-- Joint log-score of class 0 on a feature vector. -/
noncomputable def jll0 (nb : NBModel) (v : List ℝ) : ℝ :=
  nb.logPrior0 + (List.zipWith (fun a b => a * b) v nb.flp0).sum

/-- Joint log-score of class 1 on a feature vector. -/
noncomputable def jll1 (nb : NBModel) (v : List ℝ) : ℝ :=
  nb.logPrior1 + (List.zipWith (fun a b => a * b) v nb.flp1).sum

/-- Numerically stable two-class softmax: subtract the maximum
log-score, exponentiate, normalize by the sum. -/
noncomputable def softmax2 (a b : ℝ) : ℝ × ℝ :=
  (Real.exp (a - max a b) / (Real.exp (a - max a b) + Real.exp (b - max a b)),
   Real.exp (b - max a b) / (Real.exp (a - max a b) + Real.exp (b - max a b)))

/-- Modelled from the spec: class probabilities by stable softmax over
the two joint log-scores. Component one is class 0 (legitimate),
component two is class 1 (phishing). -/
noncomputable def predict_proba (nb : NBModel) (v : List ℝ) : ℝ × ℝ :=
  softmax2 (jll0 nb v) (jll1 nb v)

open Classical in
/-- Modelled from the spec: predicted class = index of the first maximal
joint log-score, hence class 0 on ties. -/
noncomputable def predict (nb : NBModel) (v : List ℝ) : ℕ :=
  if jll0 nb v < jll1 nb v then 1 else 0

/-- Stable softmax of the two stored log-priors alone: what
`predict_proba` returns on an all-zero feature vector. -/
noncomputable def priorProbs (nb : NBModel) : ℝ × ℝ :=
  softmax2 nb.logPrior0 nb.logPrior1

/-- The fitted pipeline of `src/train_phishing.py` lines 120-129:
vectorizer followed by classifier. -/
structure PipelineModel where
  vec : VecModel
  nb : NBModel

/-- The result dictionary built by `classify_email`
(`src/classify_email.py` lines 51-57). -/
structure ClassificationResult where
  is_phishing : Bool
  label : String
  confidence : ℝ
  phishing_probability : ℝ
  legitimate_probability : ℝ

/-- `classify_email` of `src/classify_email.py` lines 35-59: normalize,
vectorize, predict, and package the result dictionary. `bool(prediction)`
is truthiness of the predicted class; `confidence` is
`max(probabilities)`. -/
noncomputable def classify_email (m : PipelineModel) (email_text : String) :
    ClassificationResult :=
  let processed_text := preprocess_text email_text
  let v := transform m.vec processed_text
  let prediction := predict m.nb v
  let probabilities := predict_proba m.nb v
  { is_phishing := prediction != 0
    label := if prediction = 1 then "PHISHING" else "LEGITIMATE"
    confidence := max probabilities.1 probabilities.2
    phishing_probability := probabilities.2
    legitimate_probability := probabilities.1 }

/-! ### Dataset loading, from `src/train_phishing.py` lines 31-106. -/

/-- A pandas data frame as far as `load_dataset` inspects it: its column
names and its rows of (text, label). -/
structure DataFrame where
  columns : List String
  rows : List (String × Int)
deriving DecidableEq

/-- The twenty phishing example texts of `get_sample_dataset`
(`src/train_phishing.py` lines 36-57). -/
def phishing_emails : List String :=
  ["URGENT: Your account has been compromised! Click here immediately to verify your identity and secure your account. Enter your password now.",
   "Congratulations! You\x27ve won $1,000,000 in the lottery. Click the link to claim your prize. Provide your bank details for transfer.",
   "Dear Customer, Your PayPal account has been limited. Please verify your information by clicking the link below to restore access.",
   "WARNING: Unusual activity detected on your bank account. Click here to confirm your identity or your account will be suspended.",
   "You have received a secure document. Click here to view it. Enter your email password to access.",
   "Your Apple ID was used to sign in to iCloud. If this wasn\x27t you, click here immediately to secure your account.",
   "Final Notice: Your account will be closed in 24 hours unless you verify your information now. Click here to avoid suspension.",
   "Dear valued customer, we detected unauthorized access to your account. Verify your credentials immediately.",
   "You have been selected for a special promotion! Claim your free iPhone by clicking this link and entering your details.",
   "ALERT: Your Netflix subscription has expired. Update your payment information now to continue watching.",
   "Urgent security update required for your Microsoft account. Click here and enter your password to proceed.",
   "Your Amazon order #12345 cannot be delivered. Click here to update your shipping address and payment method.",
   "IMPORTANT: Tax refund of $3,500 available. Click here to claim before deadline. Enter your SSN to verify.",
   "Your Facebook account has been reported for violation. Verify your identity or face permanent suspension.",
   "Exclusive offer: Get rich quick with our investment program. Send money now and double your earnings!",
   "Dear user, your email storage is full. Click here to upgrade and enter your login credentials.",
   "You have a pending inheritance of $5 million. Reply with your bank details to process the transfer.",
   "Security Alert: Someone tried to access your Google account. Click here to change your password immediately.",
   "Congratulations winner! You\x27ve been selected for our giveaway. Claim your prize by providing personal information.",
   "Your Chase account requires immediate attention. Log in through this link to avoid account closure."]

/-- The twenty legitimate example texts of `get_sample_dataset`
(`src/train_phishing.py` lines 59-80). -/
def legitimate_emails : List String :=
  ["Hi team, just a reminder about our weekly meeting tomorrow at 10 AM. Please review the agenda I sent earlier.",
   "Thank you for your order! Your package has been shipped and will arrive within 3-5 business days. Tracking number: ABC123.",
   "Dear colleague, I\x27ve attached the quarterly report for your review. Let me know if you have any questions.",
   "Meeting notes from yesterday\x27s discussion. Action items are listed at the bottom. Please confirm your tasks.",
   "Happy birthday! Wishing you a wonderful day filled with joy and celebration. Hope to see you at the party!",
   "Hi, I wanted to follow up on our conversation about the project deadline. Can we schedule a call this week?",
   "Your monthly statement is now available. You can view it by logging into your account through our official app.",
   "Team update: We\x27ve successfully completed the first phase of the project. Great work everyone!",
   "Reminder: The office will be closed on Monday for the holiday. Enjoy the long weekend!",
   "Hi, thanks for connecting at the conference. I\x27d love to discuss potential collaboration opportunities.",
   "Your subscription renewal is coming up. You can manage your preferences in your account settings.",
   "Please find attached the invoice for last month\x27s services. Payment is due within 30 days.",
   "Just wanted to check in and see how you\x27re doing. Let\x27s catch up over coffee sometime.",
   "The new company policy document is now available on the intranet. Please review at your convenience.",
   "Thank you for your feedback! We appreciate your input and will use it to improve our services.",
   "Hi, here are the meeting minutes from our last discussion. Please let me know if I missed anything.",
   "Your flight confirmation for next week. Please arrive at the airport 2 hours before departure.",
   "Project status update: We\x27re on track to meet the deadline. Attached is the progress report.",
   "Welcome to our newsletter! Here\x27s what\x27s happening this month in our community.",
   "Friendly reminder about the upcoming training session next Tuesday. Please register if you haven\x27t already."]

/-- `get_sample_dataset` of `src/train_phishing.py` lines 31-86: the
built-in example corpus, phishing texts labelled 1 followed by
legitimate texts labelled 0, with columns text and label. -/
def get_sample_dataset : DataFrame :=
  { columns := ["text", "label"]
    rows := (phishing_emails.map fun e => (e, 1)) ++
            (legitimate_emails.map fun e => (e, 0)) }

/-- `load_dataset` of `src/train_phishing.py` lines 89-106. The file
system is abstracted as a partial map from paths to parsed data frames
(`os.path.exists` succeeds exactly where the map is defined). A `None`
path is `Option.none`; Python truthiness makes the empty-string path
falsy. Raising `ValueError` is the `Except.error` branch. -/
def load_dataset (fs : String → Option DataFrame) :
    Option String → Except String DataFrame
  | none => .ok get_sample_dataset
  | some p =>
    if p ≠ "" then
      match fs p with
      | some df =>
        if "text" ∈ df.columns ∧ "label" ∈ df.columns then .ok df
        else .error "Dataset must have \x27text\x27 and \x27label\x27 columns"
      | none => .ok get_sample_dataset
    else .ok get_sample_dataset

/-! ### Softmax facts -/

lemma softmax2_denom_pos (a b : ℝ) :
    0 < Real.exp (a - max a b) + Real.exp (b - max a b) :=
  add_pos (Real.exp_pos _) (Real.exp_pos _)

lemma softmax2_fst_pos (a b : ℝ) : 0 < (softmax2 a b).1 :=
  div_pos (Real.exp_pos _) (softmax2_denom_pos a b)

lemma softmax2_snd_pos (a b : ℝ) : 0 < (softmax2 a b).2 :=
  div_pos (Real.exp_pos _) (softmax2_denom_pos a b)

lemma softmax2_sum (a b : ℝ) : (softmax2 a b).1 + (softmax2 a b).2 = 1 := by
  unfold softmax2
  rw [div_add_div_same, div_self (ne_of_gt (softmax2_denom_pos a b))]

lemma softmax2_fst_le_one (a b : ℝ) : (softmax2 a b).1 ≤ 1 := by
  have h := softmax2_sum a b
  have h2 := softmax2_snd_pos a b
  linarith

lemma softmax2_snd_le_one (a b : ℝ) : (softmax2 a b).2 ≤ 1 := by
  have h := softmax2_sum a b
  have h2 := softmax2_fst_pos a b
  linarith

/-- The softmax preserves the order of the two log-scores, ties
included: exponentiation is strictly monotone, and both components share
one positive denominator. -/
lemma softmax2_fst_lt_snd_iff (a b : ℝ) : (softmax2 a b).1 < (softmax2 a b).2 ↔ a < b := by
  unfold softmax2
  rw [div_lt_div_iff_of_pos_right (softmax2_denom_pos a b), Real.exp_lt_exp,
    sub_lt_sub_iff_right]

/-! ### Facts about the all-zero feature vector -/

lemma zipWith_mul_sum_zero (v w : List ℝ) (h : ∀ x ∈ v, x = 0) :
    (List.zipWith (fun a b => a * b) v w).sum = 0 := by
  induction v generalizing w with
  | nil => simp
  | cons a v ih =>
    cases w with
    | nil => simp
    | cons b w =>
      have ha : a = 0 := h a (List.mem_cons_self a v)
      simp only [List.zipWith_cons_cons, List.sum_cons, ha, zero_mul, zero_add]
      exact ih w fun x hx => h x (List.mem_cons_of_mem a hx)

lemma sumSq_eq_zero_of_zero (v : List ℚ) (h : ∀ x ∈ v, x = 0) : sumSq v = 0 := by
  induction v with
  | nil => simp [sumSq]
  | cons a v ih =>
    have ha : a = 0 := h a (List.mem_cons_self a v)
    simp only [sumSq, List.map_cons, List.sum_cons, ha, mul_zero, zero_add]
    exact ih fun x hx => h x (List.mem_cons_of_mem a hx)

lemma zero_of_sumSq_eq_zero (v : List ℚ) (h : sumSq v = 0) : ∀ x ∈ v, x = 0 := by
  induction v with
  | nil => simp
  | cons a v ih =>
    simp only [sumSq, List.map_cons, List.sum_cons] at h
    have hrest : 0 ≤ (v.map fun x => x * x).sum := by
      apply List.sum_nonneg
      intro x hx
      obtain ⟨y, _, rfl⟩ := List.mem_map.mp hx
      exact mul_self_nonneg y
    have ha2 : 0 ≤ a * a := mul_self_nonneg a
    have ha : a * a = 0 := by linarith
    have hs : sumSq v = 0 := by simp only [sumSq]; linarith
    intro x hx
    rcases List.mem_cons.mp hx with rfl | hx
    · exact mul_self_eq_zero.mp ha
    · exact ih hs x hx

lemma mem_rawVecT_nil (m : VecModel) : ∀ x ∈ rawVecT m [], x = 0 := by
  intro x hx
  simp only [rawVecT, List.mem_map] at hx
  obtain ⟨f, _, rfl⟩ := hx
  simp

lemma tokenize_empty (stop : List String) : tokenize stop "" = [] := rfl

lemma mem_map_cast_zero (v : List ℚ) (h : ∀ y ∈ v, y = 0) :
    ∀ x ∈ v.map (fun y : ℚ => (y : ℝ)), x = 0 := by
  induction v with
  | nil => simp
  | cons a v ih =>
    intro x hx
    rcases List.mem_cons.mp hx with rfl | hx
    · rw [h a (List.mem_cons_self a v)]
      exact Rat.cast_zero
    · exact ih (fun y hy => h y (List.mem_cons_of_mem a hy)) x hx

lemma transform_empty_mem_zero (m : VecModel) : ∀ x ∈ transform m "", x = 0 := by
  intro x hx
  unfold transform at hx
  rw [tokenize_empty] at hx
  unfold transformToks at hx
  rw [if_pos (sumSq_eq_zero_of_zero _ (mem_rawVecT_nil m))] at hx
  exact mem_map_cast_zero _ (mem_rawVecT_nil m) x hx

/-- Unfolding of `classify_email` as an explicit record. -/
lemma classify_email_eq (m : PipelineModel) (s : String) :
    classify_email m s =
      { is_phishing := predict m.nb (transform m.vec (preprocess_text s)) != 0
        label := if predict m.nb (transform m.vec (preprocess_text s)) = 1
                 then "PHISHING" else "LEGITIMATE"
        confidence := max (predict_proba m.nb (transform m.vec (preprocess_text s))).1
          (predict_proba m.nb (transform m.vec (preprocess_text s))).2
        phishing_probability := (predict_proba m.nb (transform m.vec (preprocess_text s))).2
        legitimate_probability :=
          (predict_proba m.nb (transform m.vec (preprocess_text s))).1 } := rfl

/-! ### Claim theorems for the classifier -/

/-- C3: the two class probabilities returned by `predict_proba` each lie
in the interval zero-to-one and sum exactly to one (the embedding uses
exact real arithmetic, so floating-point tolerance is not needed), and
the two probability fields of every `classify_email` result sum to
one. -/
theorem C3_predict_proba_distribution :
    (∀ (nb : NBModel) (v : List ℝ),
      0 ≤ (predict_proba nb v).1 ∧ (predict_proba nb v).1 ≤ 1 ∧
      0 ≤ (predict_proba nb v).2 ∧ (predict_proba nb v).2 ≤ 1 ∧
      (predict_proba nb v).1 + (predict_proba nb v).2 = 1) ∧
    (∀ (m : PipelineModel) (s : String),
      (classify_email m s).phishing_probability +
        (classify_email m s).legitimate_probability = 1) := by
  constructor
  · intro nb v
    unfold predict_proba
    exact ⟨le_of_lt (softmax2_fst_pos _ _), softmax2_fst_le_one _ _,
      le_of_lt (softmax2_snd_pos _ _), softmax2_snd_le_one _ _, softmax2_sum _ _⟩
  · intro m s
    show (predict_proba m.nb _).2 + (predict_proba m.nb _).1 = 1
    rw [add_comm]
    exact softmax2_sum _ _

/-- C4: `predict` equals the argmax of `predict_proba`, with a tie
between the two class probabilities broken toward the lowest class
index, class 0. -/
theorem C4_predict_argmax (nb : NBModel) (v : List ℝ) :
    predict nb v =
      if (predict_proba nb v).2 ≤ (predict_proba nb v).1 then 0 else 1 := by
  unfold predict
  rcases lt_or_ge (jll0 nb v) (jll1 nb v) with h | h
  · rw [if_pos h, if_neg]
    rw [not_le]
    exact (softmax2_fst_lt_snd_iff _ _).mpr h
  · rw [if_neg (not_lt.mpr h), if_pos]
    have : ¬ (predict_proba nb v).1 < (predict_proba nb v).2 := by
      rw [predict_proba, softmax2_fst_lt_snd_iff]
      exact not_lt.mpr h
    exact not_lt.mp this

/-- C2: in every `classify_email` result the label is "PHISHING" exactly
when the predicted class is 1 and "LEGITIMATE" exactly when it is 0,
`is_phishing` holds exactly when the label is "PHISHING", and
`confidence` is the probability that `predict_proba` assigns to the
predicted class. -/
theorem C2_classify_email_fields (m : PipelineModel) (s : String) :
    ((classify_email m s).label = "PHISHING" ↔
      predict m.nb (transform m.vec (preprocess_text s)) = 1) ∧
    ((classify_email m s).label = "LEGITIMATE" ↔
      predict m.nb (transform m.vec (preprocess_text s)) = 0) ∧
    ((classify_email m s).is_phishing = true ↔ (classify_email m s).label = "PHISHING") ∧
    (classify_email m s).confidence =
      (if predict m.nb (transform m.vec (preprocess_text s)) = 1
       then (predict_proba m.nb (transform m.vec (preprocess_text s))).2
       else (predict_proba m.nb (transform m.vec (preprocess_text s))).1) := by
  rcases lt_or_ge (jll0 m.nb (transform m.vec (preprocess_text s)))
      (jll1 m.nb (transform m.vec (preprocess_text s))) with h | h
  · have hp : predict m.nb (transform m.vec (preprocess_text s)) = 1 := by
      unfold predict
      rw [if_pos h]
    have hlt : (predict_proba m.nb (transform m.vec (preprocess_text s))).1 <
        (predict_proba m.nb (transform m.vec (preprocess_text s))).2 := by
      unfold predict_proba
      exact (softmax2_fst_lt_snd_iff _ _).mpr h
    refine ⟨?_, ?_, ?_, ?_⟩
    · rw [classify_email_eq, hp]
      simp
    · rw [classify_email_eq, hp]
      simp
    · rw [classify_email_eq, hp]
      simp
    · rw [classify_email_eq, hp, if_pos rfl]
      exact max_eq_right (le_of_lt hlt)
  · have hp : predict m.nb (transform m.vec (preprocess_text s)) = 0 := by
      unfold predict
      rw [if_neg (not_lt.mpr h)]
    have hle : (predict_proba m.nb (transform m.vec (preprocess_text s))).2 ≤
        (predict_proba m.nb (transform m.vec (preprocess_text s))).1 := by
      by_contra hc
      rw [not_le] at hc
      unfold predict_proba at hc
      exact absurd ((softmax2_fst_lt_snd_iff _ _).mp hc) (not_lt.mpr h)
    refine ⟨?_, ?_, ?_, ?_⟩
    · rw [classify_email_eq, hp]
      simp
    · rw [classify_email_eq, hp]
      simp
    · rw [classify_email_eq, hp]
      simp
    · rw [classify_email_eq, hp, if_neg one_ne_zero.symm]
      exact max_eq_left hle

/-- C9: the confidence of every `classify_email` result is at least one
half: it is the maximum of two probabilities that sum to one. -/
theorem C9_confidence_at_least_half (m : PipelineModel) (s : String) :
    (1 : ℝ) / 2 ≤ (classify_email m s).confidence := by
  rw [classify_email_eq]
  show (1 : ℝ) / 2 ≤ max (predict_proba _ _).1 (predict_proba _ _).2
  have hsum : (predict_proba m.nb (transform m.vec (preprocess_text s))).1 +
      (predict_proba m.nb (transform m.vec (preprocess_text s))).2 = 1 :=
    softmax2_sum _ _
  rcases max_cases (predict_proba m.nb (transform m.vec (preprocess_text s))).1
    (predict_proba m.nb (transform m.vec (preprocess_text s))).2 with ⟨he, hge⟩ | ⟨he, hge⟩ <;>
    rw [he] <;> linarith

/-- C7: classifying the empty string succeeds and is driven purely by
the class priors: the empty string vectorizes to the all-zero vector,
each joint log-score reduces to the stored log-prior, and the returned
probabilities are the softmax of the log-priors alone. -/
theorem C7_empty_string_priors (m : PipelineModel) :
    jll0 m.nb (transform m.vec (preprocess_text "")) = m.nb.logPrior0 ∧
    jll1 m.nb (transform m.vec (preprocess_text "")) = m.nb.logPrior1 ∧
    predict_proba m.nb (transform m.vec (preprocess_text "")) = priorProbs m.nb ∧
    (classify_email m "").legitimate_probability = (priorProbs m.nb).1 ∧
    (classify_email m "").phishing_probability = (priorProbs m.nb).2 := by
  have hpp : preprocess_text "" = "" := rfl
  have h0 : jll0 m.nb (transform m.vec (preprocess_text "")) = m.nb.logPrior0 := by
    unfold jll0
    rw [hpp, zipWith_mul_sum_zero _ _ (transform_empty_mem_zero m.vec), add_zero]
  have h1 : jll1 m.nb (transform m.vec (preprocess_text "")) = m.nb.logPrior1 := by
    unfold jll1
    rw [hpp, zipWith_mul_sum_zero _ _ (transform_empty_mem_zero m.vec), add_zero]
  have hs : predict_proba m.nb (transform m.vec (preprocess_text "")) = priorProbs m.nb := by
    unfold predict_proba priorProbs
    rw [h0, h1]
  refine ⟨h0, h1, hs, ?_, ?_⟩
  · rw [classify_email_eq]
    show (predict_proba m.nb (transform m.vec (preprocess_text ""))).1 = _
    rw [hs]
  · rw [classify_email_eq]
    show (predict_proba m.nb (transform m.vec (preprocess_text ""))).2 = _
    rw [hs]

/-! ### Vectorizer lemmas and the transform contract -/

lemma sumSq_nonneg (v : List ℚ) : 0 ≤ sumSq v := by
  apply List.sum_nonneg
  intro x hx
  obtain ⟨y, _, rfl⟩ := List.mem_map.mp hx
  exact mul_self_nonneg y

lemma sumsq_map_div (v : List ℚ) (c : ℝ) :
    ((v.map fun x : ℚ => (x : ℝ) / c).map fun x : ℝ => x * x).sum
      = ((sumSq v : ℚ) : ℝ) / (c * c) := by
  induction v with
  | nil => simp [sumSq]
  | cons a v ih =>
    have hs : sumSq (a :: v) = a * a + sumSq v := by simp [sumSq]
    rw [List.map_cons, List.map_cons, List.sum_cons, ih, hs]
    push_cast
    rw [div_mul_div_comm, div_add_div_same]

lemma rawVecT_length (m : VecModel) (toks : List String) :
    (rawVecT m toks).length = m.features.length := by
  simp [rawVecT]

lemma transformToks_length (m : VecModel) (toks : List String) :
    (transformToks m toks).length = m.features.length := by
  unfold transformToks
  split <;> rw [List.length_map, rawVecT_length]

/-- C5: for a fitted vectorizer, `transform` returns a vector of
dimension equal to the vocabulary size; a token outside the vocabulary
contributes nothing (no failure, no vocabulary growth, unchanged
output); the result is L2-normalized when the raw vector is nonzero and
is returned unchanged as the zero vector when its Euclidean norm is
zero. -/
theorem C5_transform_contract :
    (∀ (m : VecModel) (s : String), (transform m s).length = m.features.length) ∧
    (∀ (m : VecModel) (toks : List String) (t : String), t ∉ m.vocabTerms →
      transformToks m (t :: toks) = transformToks m toks) ∧
    (∀ (m : VecModel) (s : String), sumSq (rawVecT m (tokenize m.stop s)) ≠ 0 →
      l2norm (transform m s) = 1) ∧
    (∀ (m : VecModel) (s : String), sumSq (rawVecT m (tokenize m.stop s)) = 0 →
      transform m s = (rawVecT m (tokenize m.stop s)).map (fun x : ℚ => (x : ℝ)) ∧
      ∀ x ∈ transform m s, x = 0) := by
  refine ⟨fun m s => transformToks_length m _, ?_, ?_, ?_⟩
  · intro m toks t ht
    have hraw : rawVecT m (t :: toks) = rawVecT m toks := by
      apply List.map_congr_left
      intro f hf
      have hne : f.1 ≠ t := by
        intro he
        exact ht (he ▸ List.mem_map_of_mem Prod.fst hf)
      rw [List.count_cons_of_ne hne]
    unfold transformToks
    rw [hraw]
  · intro m s hS
    have hpos : (0 : ℚ) < sumSq (rawVecT m (tokenize m.stop s)) :=
      lt_of_le_of_ne (sumSq_nonneg _) (Ne.symm hS)
    have hposR : (0 : ℝ) < ((sumSq (rawVecT m (tokenize m.stop s)) : ℚ) : ℝ) := by
      exact_mod_cast hpos
    unfold transform transformToks
    rw [if_neg hS]
    unfold l2norm
    rw [sumsq_map_div, Real.mul_self_sqrt (le_of_lt hposR),
      div_self (ne_of_gt hposR), Real.sqrt_one]
  · intro m s hS
    have he : transform m s = (rawVecT m (tokenize m.stop s)).map (fun x : ℚ => (x : ℝ)) := by
      unfold transform transformToks
      rw [if_pos hS]
    refine ⟨he, ?_⟩
    rw [he]
    exact mem_map_cast_zero _ (zero_of_sumSq_eq_zero _ hS)

lemma witness_sumSq_val :
    sumSq (rawVecT (VecModel.mk [("ham", 1), ("spam", 2)] [])
      (tokenize (VecModel.mk [("ham", 1), ("spam", 2)] []).stop "ham spam")) = 5 := by
  have htoks : tokenize (VecModel.mk [("ham", (1 : ℚ)), ("spam", 2)] []).stop "ham spam"
      = ["ham", "spam", "ham spam"] := by decide
  rw [htoks]
  have h1 : List.count "ham" ["ham", "spam", "ham spam"] = 1 := by decide
  have h2 : List.count "spam" ["ham", "spam", "ham spam"] = 1 := by decide
  simp only [rawVecT, List.map_cons, List.map_nil, h1, h2]
  norm_num [sumSq]

/-- Witness for C5: a concrete two-feature vectorizer on which the
out-of-vocabulary token "xx" leaves the output unchanged and a document
with vocabulary overlap produces a unit-norm vector; the hypotheses are
discharged at the concrete inputs. -/
theorem C5_transform_contract_witness :
    ("xx" ∉ (VecModel.mk [("ham", 1), ("spam", 2)] []).vocabTerms) ∧
    transformToks (VecModel.mk [("ham", 1), ("spam", 2)] []) ("xx" :: ["ham"]) =
      transformToks (VecModel.mk [("ham", 1), ("spam", 2)] []) ["ham"] ∧
    sumSq (rawVecT (VecModel.mk [("ham", 1), ("spam", 2)] [])
      (tokenize (VecModel.mk [("ham", 1), ("spam", 2)] []).stop "ham spam")) ≠ 0 ∧
    l2norm (transform (VecModel.mk [("ham", 1), ("spam", 2)] []) "ham spam") = 1 ∧
    sumSq (rawVecT (VecModel.mk [] []) (tokenize (VecModel.mk [] []).stop "zz")) = 0 ∧
    transform (VecModel.mk [] []) "zz" =
      (rawVecT (VecModel.mk [] []) (tokenize (VecModel.mk [] []).stop "zz")).map
        (fun x : ℚ => (x : ℝ)) :=
  ⟨by decide,
   C5_transform_contract.2.1 _ ["ham"] "xx" (by decide),
   by rw [witness_sumSq_val]; norm_num,
   C5_transform_contract.2.2.1 _ "ham spam" (by rw [witness_sumSq_val]; norm_num),
   rfl,
   (C5_transform_contract.2.2.2 (VecModel.mk [] []) "zz" rfl).1⟩

/-! ### Claim theorems for the normalizer guard and dataset loading -/

/-- C6: `preprocess_text` is total, and non-string input (`None` or any
other non-string value) as well as the empty string yields the empty
string. -/
theorem C6_total_on_nonstring :
    preprocessVal PyVal.pynone = "" ∧ preprocessVal PyVal.other = "" ∧
    preprocessVal (PyVal.str "") = "" :=
  ⟨rfl, rfl, rfl⟩

/-- C8: `load_dataset` errors exactly when a dataset file is actually
read and its table lacks a text or a label column; a missing path or a
nonexistent file instead falls back to the built-in example corpus. -/
theorem C8_load_dataset_schema :
    (∀ fs : String → Option DataFrame,
      load_dataset fs none = .ok get_sample_dataset) ∧
    (∀ (fs : String → Option DataFrame) (p : String),
      fs p = none → load_dataset fs (some p) = .ok get_sample_dataset) ∧
    (∀ (fs : String → Option DataFrame) (p : String) (df : DataFrame),
      p ≠ "" → fs p = some df →
      ((∃ e, load_dataset fs (some p) = .error e) ↔
        ¬("text" ∈ df.columns ∧ "label" ∈ df.columns))) := by
  refine ⟨fun fs => rfl, ?_, ?_⟩
  · intro fs p hfs
    simp [load_dataset, hfs]
  · intro fs p df hp hfs
    simp only [load_dataset, hfs]
    rw [if_pos hp]
    by_cases hcol : "text" ∈ df.columns ∧ "label" ∈ df.columns
    · rw [if_pos hcol]
      simp [hcol]
    · rw [if_neg hcol]
      simp [hcol]

/-- Witness for C8: with a file system holding one parseable file whose
table has only a text column, loading that path errors; the hypotheses
are discharged at the concrete input. -/
theorem C8_load_dataset_schema_witness :
    ("d.csv" : String) ≠ "" ∧
    (fun q => if q = "d.csv" then some (DataFrame.mk ["text"] []) else none) "d.csv" =
      some (DataFrame.mk ["text"] []) ∧
    (∃ e, load_dataset
      (fun q => if q = "d.csv" then some (DataFrame.mk ["text"] []) else none)
      (some "d.csv") = .error e) ∧
    (fun _ : String => (none : Option DataFrame)) "missing.csv" = none ∧
    load_dataset (fun _ : String => (none : Option DataFrame)) (some "missing.csv") =
      .ok get_sample_dataset :=
  ⟨by decide, rfl,
    (C8_load_dataset_schema.2.2 _ "d.csv" (DataFrame.mk ["text"] []) (by decide) rfl).mpr
      (by decide),
    rfl,
    C8_load_dataset_schema.2.1 _ "missing.csv" rfl⟩

/-! ### Normal form of the normalizer output (first stage: the last
three passes force word characters and isolated single spaces) -/

lemma head?_dropWhile_false (p : Char → Bool) (l : List Char) (c : Char)
    (h : (l.dropWhile p).head? = some c) : p c = false := by
  have hl := List.head?_dropWhile_not p l
  rw [h] at hl
  exact hl

lemma stripBoth_prefix_dropWhile (l : List Char) :
    stripBoth l <+: l.dropWhile isSpaceChar := by
  unfold stripBoth
  rw [← List.reverse_suffix, List.reverse_reverse]
  exact List.dropWhile_suffix isSpaceChar

lemma infixStripBoth (l : List Char) : stripBoth l <:+: l :=
  (stripBoth_prefix_dropWhile l).isInfix.trans (List.dropWhile_suffix isSpaceChar).isInfix

lemma stripBoth_head (l : List Char) (c : Char) (h : (stripBoth l).head? = some c) :
    isSpaceChar c = false := by
  obtain ⟨r, hr⟩ := stripBoth_prefix_dropWhile l
  apply head?_dropWhile_false isSpaceChar l
  rw [← hr, List.head?_append, h]
  rfl

lemma stripBoth_getLast (l : List Char) (c : Char) (h : (stripBoth l).getLast? = some c) :
    isSpaceChar c = false := by
  unfold stripBoth at h
  rw [List.getLast?_reverse] at h
  exact head?_dropWhile_false isSpaceChar _ c h

lemma mem_subPunct (l : List Char) (c : Char) (h : c ∈ subPunct l) :
    isWordChar c = true ∨ isSpaceChar c = true := by
  obtain ⟨d, _, rfl⟩ := List.mem_map.mp h
  by_cases hd : isWordChar d || isSpaceChar d
  · rw [if_pos hd]
    exact Bool.or_eq_true _ _ |>.mp hd
  · rw [if_neg hd]
    right
    rfl

lemma mem_collapseWsAux (b : Bool) (l : List Char) (c : Char)
    (h : c ∈ collapseWsAux b l) : (c ∈ l ∧ isSpaceChar c = false) ∨ c = ' ' := by
  induction l generalizing b with
  | nil => cases b <;> simp [collapseWsAux] at h
  | cons d ds ih =>
    cases b with
    | true =>
      by_cases hd : isSpaceChar d
      · rw [show collapseWsAux true (d :: ds) = collapseWsAux true ds by
          simp [collapseWsAux, hd]] at h
        rcases ih true h with ⟨hm, hs⟩ | he
        · exact Or.inl ⟨List.mem_cons_of_mem d hm, hs⟩
        · exact Or.inr he
      · rw [show collapseWsAux true (d :: ds) = d :: collapseWsAux false ds by
          simp [collapseWsAux, hd]] at h
        rcases List.mem_cons.mp h with rfl | h
        · exact Or.inl ⟨List.mem_cons_self c ds, Bool.not_eq_true _ ▸ (by simpa using hd)⟩
        · rcases ih false h with ⟨hm, hs⟩ | he
          · exact Or.inl ⟨List.mem_cons_of_mem d hm, hs⟩
          · exact Or.inr he
    | false =>
      by_cases hd : isSpaceChar d
      · rw [show collapseWsAux false (d :: ds) = ' ' :: collapseWsAux true ds by
          simp [collapseWsAux, hd]] at h
        rcases List.mem_cons.mp h with rfl | h
        · exact Or.inr rfl
        · rcases ih true h with ⟨hm, hs⟩ | he
          · exact Or.inl ⟨List.mem_cons_of_mem d hm, hs⟩
          · exact Or.inr he
      · rw [show collapseWsAux false (d :: ds) = d :: collapseWsAux false ds by
          simp [collapseWsAux, hd]] at h
        rcases List.mem_cons.mp h with rfl | h
        · exact Or.inl ⟨List.mem_cons_self c ds, by simpa using hd⟩
        · rcases ih false h with ⟨hm, hs⟩ | he
          · exact Or.inl ⟨List.mem_cons_of_mem d hm, hs⟩
          · exact Or.inr he

lemma head_collapseWsAux_true (l : List Char) (c : Char)
    (h : (collapseWsAux true l).head? = some c) : isSpaceChar c = false := by
  induction l with
  | nil => simp [collapseWsAux] at h
  | cons d ds ih =>
    by_cases hd : isSpaceChar d
    · rw [show collapseWsAux true (d :: ds) = collapseWsAux true ds by
        simp [collapseWsAux, hd]] at h
      exact ih h
    · rw [show collapseWsAux true (d :: ds) = d :: collapseWsAux false ds by
        simp [collapseWsAux, hd]] at h
      rw [List.head?_cons, Option.some_inj] at h
      rw [← h]
      simpa using hd

/-- The pairwise property of the collapsed output: no two adjacent
characters are both the single space. -/
lemma chain'_collapseWsAux (b : Bool) (l : List Char) :
    List.Chain' (fun a b => ¬(a = ' ' ∧ b = ' ')) (collapseWsAux b l) := by
  induction l generalizing b with
  | nil => cases b <;> simp [collapseWsAux]
  | cons d ds ih =>
    cases b with
    | true =>
      by_cases hd : isSpaceChar d
      · rw [show collapseWsAux true (d :: ds) = collapseWsAux true ds by
          simp [collapseWsAux, hd]]
        exact ih true
      · rw [show collapseWsAux true (d :: ds) = d :: collapseWsAux false ds by
          simp [collapseWsAux, hd]]
        rw [List.chain'_cons']
        refine ⟨fun y _ hy => ?_, ih false⟩
        rw [hy.1] at hd
        simp [isSpaceChar] at hd
    | false =>
      by_cases hd : isSpaceChar d
      · rw [show collapseWsAux false (d :: ds) = ' ' :: collapseWsAux true ds by
          simp [collapseWsAux, hd]]
        rw [List.chain'_cons']
        refine ⟨fun y hy hc => ?_, ih true⟩
        have := head_collapseWsAux_true ds y hy
        rw [hc.2] at this
        simp [isSpaceChar] at this
      · rw [show collapseWsAux false (d :: ds) = d :: collapseWsAux false ds by
          simp [collapseWsAux, hd]]
        rw [List.chain'_cons']
        refine ⟨fun y _ hy => ?_, ih false⟩
        rw [hy.1] at hd
        simp [isSpaceChar] at hd

/-- C10: every `preprocess_text` output is in normal form: every
character is alphanumeric, an underscore, or the single space; no two
spaces are adjacent; and the output neither starts nor ends with a
space. -/
theorem C10_output_normal_form (s : String) :
    (∀ c ∈ (preprocess_text s).data, isWordChar c = true ∨ c = ' ') ∧
    List.Chain' (fun a b => ¬(a = ' ' ∧ b = ' ')) (preprocess_text s).data ∧
    (preprocess_text s).data.head? ≠ some ' ' ∧
    (preprocess_text s).data.getLast? ≠ some ' ' := by
  have hdata : (preprocess_text s).data
      = stripBoth (collapseWs (subPunct (subNum (subEmail (subUrl (s.data.map Char.toLower)))))) :=
    rfl
  rw [hdata]
  refine ⟨?_, ?_, ?_, ?_⟩
  · intro c hc
    have hc5 := (infixStripBoth _).mem hc
    rcases mem_collapseWsAux false _ c hc5 with ⟨hm, hs⟩ | he
    · rcases mem_subPunct _ c hm with hw | hsp
      · exact Or.inl hw
      · rw [hsp] at hs
        cases hs
    · exact Or.inr he
  · exact List.Chain'.infix (chain'_collapseWsAux false _) (infixStripBoth _)
  · intro hh
    have := stripBoth_head _ ' ' hh
    simp [isSpaceChar] at this
  · intro hh
    have := stripBoth_getLast _ ' ' hh
    simp [isSpaceChar] at this

/-- Witness for C10: at the concrete input "Hi,  there!" the normal-form
theorem is instantiated, with the character-membership hypothesis
discharged at the concrete character h. -/
theorem C10_output_normal_form_witness :
    ('h' ∈ (preprocess_text "Hi,  there!").data) ∧
    (isWordChar 'h' = true ∨ 'h' = ' ') ∧
    (preprocess_text "Hi,  there!").data.head? ≠ some ' ' :=
  ⟨by decide,
   (C10_output_normal_form "Hi,  there!").1 'h' (by decide),
   (C10_output_normal_form "Hi,  there!").2.2.1⟩

/-! ### The no-URL-match invariant

After the URL substitution has run, no suffix of the text matches the
URL pattern again; the later passes preserve that. This is the key
invariant behind the second-application behaviour of the normalizer. -/

/-- No suffix of `l` begins a URL-pattern match. -/
def noUrl (l : List Char) : Prop := ∀ t, t <:+ l → urlStart t = false

lemma noUrl_nil : noUrl [] := by
  intro t ht
  rw [List.suffix_nil.mp ht]
  rfl

lemma noUrl_suffix {l u : List Char} (h : noUrl l) (hu : u <:+ l) : noUrl u :=
  fun t ht => h t (ht.trans hu)

lemma noUrl_tail {c : Char} {cs : List Char} (h : noUrl (c :: cs)) : noUrl cs :=
  noUrl_suffix h (List.suffix_cons c cs)

lemma urlStart_head {a : Char} {X : List Char} (h : urlStart (a :: X) = true) :
    a = 'h' ∨ a = 'w' := by
  unfold urlStart at h
  rcases (Bool.or_eq_true _ _).mp h with h1 | h1 <;>
    rw [Bool.and_eq_true, decide_eq_true_eq] at h1
  · left
    have ht := h1.1
    rw [List.take_succ_cons] at ht
    exact (List.cons_eq_cons.mp ht).1
  · right
    have ht := h1.1
    rw [List.take_succ_cons] at ht
    exact (List.cons_eq_cons.mp ht).1

lemma urlStart_false_of_head {a : Char} (X : List Char) (hh : a ≠ 'h') (hw : a ≠ 'w') :
    urlStart (a :: X) = false := by
  rw [← Bool.not_eq_true]
  intro habs
  rcases urlStart_head habs with rfl | rfl
  · exact hh rfl
  · exact hw rfl

lemma noUrl_cons (c : Char) (X : List Char) (hc : c ≠ 'h') (hw : c ≠ 'w')
    (h : noUrl X) : noUrl (c :: X) := by
  intro t ht
  rcases List.suffix_cons_iff.mp ht with rfl | ht
  · exact urlStart_false_of_head X hc hw
  · exact h t ht

/-! Reflection lemmas: when a pass output starts with one of the
lowercase pattern letters, the input started with the same letter and
the tail of the output is the pass applied to the tail of the input. -/

lemma subUrlAux_reflect {d : Char} {cs r : List Char}
    (h : subUrlAux false cs = d :: r) (hd : d ≠ 'U') :
    ∃ cs₁, cs = d :: cs₁ ∧ r = subUrlAux false cs₁ := by
  cases cs with
  | nil => simp [subUrlAux] at h
  | cons c cs₁ =>
    cases hu : urlStart (c :: cs₁) with
    | true =>
      rw [show subUrlAux false (c :: cs₁) = 'U' :: 'R' :: 'L' :: subUrlAux true cs₁ by
        simp [subUrlAux, hu]] at h
      exact absurd (List.cons_eq_cons.mp h).1.symm hd
    | false =>
      rw [show subUrlAux false (c :: cs₁) = c :: subUrlAux false cs₁ by
        simp [subUrlAux, hu]] at h
      obtain ⟨hcd, hr⟩ := List.cons_eq_cons.mp h
      exact ⟨cs₁, by rw [hcd], hr.symm⟩

lemma subEmailAux_reflect {d : Char} {cs r : List Char}
    (h : subEmailAux false cs = d :: r) (hd : d ≠ 'E') :
    ∃ cs₁, cs = d :: cs₁ ∧ r = subEmailAux false cs₁ := by
  cases cs with
  | nil => simp [subEmailAux] at h
  | cons c cs₁ =>
    cases he : emailMatch (c :: cs₁) with
    | true =>
      rw [show subEmailAux false (c :: cs₁)
          = 'E' :: 'M' :: 'A' :: 'I' :: 'L' :: subEmailAux true cs₁ by
        simp [subEmailAux, he]] at h
      exact absurd (List.cons_eq_cons.mp h).1.symm hd
    | false =>
      rw [show subEmailAux false (c :: cs₁) = c :: subEmailAux false cs₁ by
        simp [subEmailAux, he]] at h
      obtain ⟨hcd, hr⟩ := List.cons_eq_cons.mp h
      exact ⟨cs₁, by rw [hcd], hr.symm⟩

lemma subNumAux_reflect {d : Char} {cs r : List Char}
    (h : subNumAux false cs = d :: r) (hd : d ≠ 'N') :
    ∃ cs₁, cs = d :: cs₁ ∧ r = subNumAux false cs₁ := by
  cases cs with
  | nil => simp [subNumAux] at h
  | cons c cs₁ =>
    cases hdig : c.isDigit with
    | true =>
      rw [show subNumAux false (c :: cs₁)
          = 'N' :: 'U' :: 'M' :: 'B' :: 'E' :: 'R' :: subNumAux true cs₁ by
        simp [subNumAux, hdig]] at h
      exact absurd (List.cons_eq_cons.mp h).1.symm hd
    | false =>
      rw [show subNumAux false (c :: cs₁) = c :: subNumAux false cs₁ by
        simp [subNumAux, hdig]] at h
      obtain ⟨hcd, hr⟩ := List.cons_eq_cons.mp h
      exact ⟨cs₁, by rw [hcd], hr.symm⟩

lemma collapseWsAux_reflect {d : Char} {cs r : List Char}
    (h : collapseWsAux false cs = d :: r) (hd : isSpaceChar d = false) :
    ∃ cs₁, cs = d :: cs₁ ∧ r = collapseWsAux false cs₁ := by
  cases cs with
  | nil => simp [collapseWsAux] at h
  | cons c cs₁ =>
    cases hsp : isSpaceChar c with
    | true =>
      rw [show collapseWsAux false (c :: cs₁) = ' ' :: collapseWsAux true cs₁ by
        simp [collapseWsAux, hsp]] at h
      obtain ⟨hcd, _⟩ := List.cons_eq_cons.mp h
      rw [← hcd] at hd
      simp [isSpaceChar] at hd
    | false =>
      rw [show collapseWsAux false (c :: cs₁) = c :: collapseWsAux false cs₁ by
        simp [collapseWsAux, hsp]] at h
      obtain ⟨hcd, hr⟩ := List.cons_eq_cons.mp h
      exact ⟨cs₁, by rw [hcd], hr.symm⟩

lemma subPunct_reflect {d : Char} {cs r : List Char}
    (h : subPunct cs = d :: r) (hw : isWordChar d = true) :
    ∃ cs₁, cs = d :: cs₁ ∧ r = subPunct cs₁ := by
  cases cs with
  | nil => simp [subPunct] at h
  | cons c cs₁ =>
    rw [show subPunct (c :: cs₁)
        = (if isWordChar c || isSpaceChar c then c else ' ') :: subPunct cs₁ from rfl] at h
    obtain ⟨hcd, hr⟩ := List.cons_eq_cons.mp h
    by_cases hc : isWordChar c || isSpaceChar c
    · rw [if_pos hc] at hcd
      exact ⟨cs₁, by rw [hcd], hr.symm⟩
    · rw [if_neg hc] at hcd
      rw [← hcd] at hw
      exact absurd hw (by decide)

/-! Head transfer: a non-whitespace head of a pass output forces a
non-whitespace head of the pass input. -/

lemma headNonspace_subUrlAux (cs : List Char)
    (h : headNonspace (subUrlAux false cs) = true) : headNonspace cs = true := by
  cases cs with
  | nil => simp [subUrlAux, headNonspace] at h
  | cons c cs₁ =>
    cases hu : urlStart (c :: cs₁) with
    | true =>
      rcases urlStart_head hu with rfl | rfl <;> rfl
    | false =>
      rw [show subUrlAux false (c :: cs₁) = c :: subUrlAux false cs₁ by
        simp [subUrlAux, hu]] at h
      exact h

lemma headNonspace_subEmailAux (cs : List Char)
    (h : headNonspace (subEmailAux false cs) = true) : headNonspace cs = true := by
  cases cs with
  | nil => simp [subEmailAux, headNonspace] at h
  | cons c cs₁ =>
    cases hsp : isSpaceChar c with
    | false => rw [show headNonspace (c :: cs₁) = !isSpaceChar c from rfl, hsp]; rfl
    | true =>
      have he : emailMatch (c :: cs₁) = false := by
        simp [emailMatch, List.takeWhile_cons, hsp]
      rw [show subEmailAux false (c :: cs₁) = c :: subEmailAux false cs₁ by
        simp [subEmailAux, he]] at h
      rw [show headNonspace (c :: subEmailAux false cs₁) = !isSpaceChar c from rfl, hsp] at h
      simp at h

lemma headNonspace_subNumAux (cs : List Char)
    (h : headNonspace (subNumAux false cs) = true) : headNonspace cs = true := by
  cases cs with
  | nil => simp [subNumAux, headNonspace] at h
  | cons c cs₁ =>
    cases hdig : c.isDigit with
    | true =>
      rw [show headNonspace (c :: cs₁) = !isSpaceChar c from rfl,
        isSpaceChar_false_of_digit c hdig]
      rfl
    | false =>
      rw [show subNumAux false (c :: cs₁) = c :: subNumAux false cs₁ by
        simp [subNumAux, hdig]] at h
      exact h

lemma headNonspace_collapseWsAux (cs : List Char)
    (h : headNonspace (collapseWsAux false cs) = true) : headNonspace cs = true := by
  cases cs with
  | nil => simp [collapseWsAux, headNonspace] at h
  | cons c cs₁ =>
    cases hsp : isSpaceChar c with
    | false => rw [show headNonspace (c :: cs₁) = !isSpaceChar c from rfl, hsp]; rfl
    | true =>
      rw [show collapseWsAux false (c :: cs₁) = ' ' :: collapseWsAux true cs₁ by
        simp [collapseWsAux, hsp]] at h
      simp [headNonspace, isSpaceChar] at h

lemma headNonspace_subPunct (cs : List Char)
    (h : headNonspace (subPunct cs) = true) : headNonspace cs = true := by
  cases cs with
  | nil => simp [subPunct, headNonspace] at h
  | cons c cs₁ =>
    rw [show subPunct (c :: cs₁)
        = (if isWordChar c || isSpaceChar c then c else ' ') :: subPunct cs₁ from rfl] at h
    by_cases hc : isWordChar c || isSpaceChar c
    · rw [if_pos hc] at h
      exact h
    · rw [if_neg hc] at h
      simp [headNonspace, isSpaceChar] at h

lemma headNonspace_map_toLower (cs : List Char)
    (h : headNonspace (cs.map Char.toLower) = true) : headNonspace cs = true := by
  cases cs with
  | nil => simp [headNonspace] at h
  | cons c cs₁ =>
    rw [List.map_cons] at h
    rw [show headNonspace (Char.toLower c :: cs₁.map Char.toLower)
        = !isSpaceChar (Char.toLower c) from rfl, isSpaceChar_toLower] at h
    exact h

/-- Generic transfer: if a URL match starts at `c` followed by the
output of a pass `f`, and `f` reflects the pattern letters t, p, w from
its output into its input and reflects non-whitespace heads, then a URL
match already started at `c` followed by the pass input. `P` is an
invariant of the input threaded through the reflection. -/
lemma take_eq_cons_destruct {X : List Char} {a : Char} {rest : List Char} {n : Nat}
    (h : X.take (n + 1) = a :: rest) : ∃ r, X = a :: r ∧ r.take n = rest := by
  cases X with
  | nil => simp at h
  | cons x xs =>
    rw [List.take_succ_cons] at h
    obtain ⟨hx, ht⟩ := List.cons_eq_cons.mp h
    exact ⟨xs, by rw [hx], ht⟩

lemma urlStart_transfer (f : List Char → List Char) (P : List Char → Prop)
    (hrefl : ∀ d cs r, P cs → f cs = d :: r → (d = 't' ∨ d = 'p' ∨ d = 'w') →
      ∃ cs₁, cs = d :: cs₁ ∧ r = f cs₁ ∧ P cs₁)
    (hhead : ∀ cs, P cs → headNonspace (f cs) = true → headNonspace cs = true)
    (c : Char) (cs : List Char) (hP : P cs) (h : urlStart (c :: f cs) = true) :
    urlStart (c :: cs) = true := by
  unfold urlStart at h
  rcases (Bool.or_eq_true _ _).mp h with h1 | h1 <;>
    rw [Bool.and_eq_true, decide_eq_true_eq] at h1
  · obtain ⟨htake, hhd⟩ := h1
    rw [List.take_succ_cons] at htake
    obtain ⟨hc, htake⟩ := List.cons_eq_cons.mp htake
    obtain ⟨r1, hfc, htake1⟩ := take_eq_cons_destruct htake
    obtain ⟨cs₁, hcs₁, hr₁, hP₁⟩ := hrefl 't' cs r1 hP hfc (Or.inl rfl)
    rw [hr₁] at htake1
    obtain ⟨r2, hfc2, htake2⟩ := take_eq_cons_destruct htake1
    obtain ⟨cs₂, hcs₂, hr₂, hP₂⟩ := hrefl 't' cs₁ r2 hP₁ hfc2 (Or.inl rfl)
    rw [hr₂] at htake2
    obtain ⟨r3, hfc3, _⟩ := take_eq_cons_destruct htake2
    obtain ⟨cs₃, hcs₃, hr₃, hP₃⟩ := hrefl 'p' cs₂ r3 hP₂ hfc3 (Or.inr (Or.inl rfl))
    have hfcs : f cs = 't' :: 't' :: 'p' :: f cs₃ := by
      rw [hfc, hr₁, hfc2, hr₂, hfc3, hr₃]
    rw [hfcs] at hhd
    simp only [List.drop_succ_cons, List.drop_zero] at hhd
    have hhead3 := hhead cs₃ hP₃ hhd
    subst hc
    rw [hcs₁, hcs₂, hcs₃]
    unfold urlStart
    apply (Bool.or_eq_true _ _).mpr
    left
    rw [Bool.and_eq_true, decide_eq_true_eq]
    constructor
    · simp
    · simpa using hhead3
  · obtain ⟨htake, hhd⟩ := h1
    rw [List.take_succ_cons] at htake
    obtain ⟨hc, htake⟩ := List.cons_eq_cons.mp htake
    obtain ⟨r1, hfc, htake1⟩ := take_eq_cons_destruct htake
    obtain ⟨cs₁, hcs₁, hr₁, hP₁⟩ := hrefl 'w' cs r1 hP hfc (Or.inr (Or.inr rfl))
    rw [hr₁] at htake1
    obtain ⟨r2, hfc2, _⟩ := take_eq_cons_destruct htake1
    obtain ⟨cs₂, hcs₂, hr₂, hP₂⟩ := hrefl 'w' cs₁ r2 hP₁ hfc2 (Or.inr (Or.inr rfl))
    have hfcs : f cs = 'w' :: 'w' :: f cs₂ := by
      rw [hfc, hr₁, hfc2, hr₂]
    rw [hfcs] at hhd
    simp only [List.drop_succ_cons, List.drop_zero] at hhd
    have hhead2 := hhead cs₂ hP₂ hhd
    subst hc
    rw [hcs₁, hcs₂]
    unfold urlStart
    apply (Bool.or_eq_true _ _).mpr
    right
    rw [Bool.and_eq_true, decide_eq_true_eq]
    constructor
    · simp
    · simpa using hhead2

/-! ### Preservation of the no-URL-match invariant through the passes -/

lemma space_ne_hw {c : Char} (hsp : isSpaceChar c = true) : c ≠ 'h' ∧ c ≠ 'w' := by
  constructor <;> intro he <;> rw [he] at hsp <;> exact absurd hsp (by decide)

lemma noUrl_subUrlAux : ∀ (l : List Char) (b : Bool), noUrl (subUrlAux b l) := by
  intro l
  induction l with
  | nil => intro b; cases b <;> exact noUrl_nil
  | cons c cs ih =>
    intro b
    cases b with
    | true =>
      cases hsp : isSpaceChar c with
      | true =>
        rw [show subUrlAux true (c :: cs) = c :: subUrlAux false cs by simp [subUrlAux, hsp]]
        exact noUrl_cons c _ (space_ne_hw hsp).1 (space_ne_hw hsp).2 (ih false)
      | false =>
        rw [show subUrlAux true (c :: cs) = subUrlAux true cs by simp [subUrlAux, hsp]]
        exact ih true
    | false =>
      cases hu : urlStart (c :: cs) with
      | true =>
        rw [show subUrlAux false (c :: cs) = 'U' :: 'R' :: 'L' :: subUrlAux true cs by
          simp [subUrlAux, hu]]
        apply noUrl_cons 'U' _ (by decide) (by decide)
        apply noUrl_cons 'R' _ (by decide) (by decide)
        apply noUrl_cons 'L' _ (by decide) (by decide)
        exact ih true
      | false =>
        rw [show subUrlAux false (c :: cs) = c :: subUrlAux false cs by
          simp [subUrlAux, hu]]
        intro t ht
        rcases List.suffix_cons_iff.mp ht with rfl | ht
        · rw [← Bool.not_eq_true]
          intro habs
          have htr := urlStart_transfer (subUrlAux false) (fun _ => True)
            (fun d cs₀ r _ hf hd => by
              obtain ⟨cs₁, h1, h2⟩ := subUrlAux_reflect hf
                (by rcases hd with rfl | rfl | rfl <;> decide)
              exact ⟨cs₁, h1, h2, trivial⟩)
            (fun cs₀ _ hh => headNonspace_subUrlAux cs₀ hh)
            c cs trivial habs
          rw [htr] at hu
          cases hu
        · exact ih false t ht

lemma noUrl_subEmailAux : ∀ (l : List Char) (b : Bool), noUrl l → noUrl (subEmailAux b l) := by
  intro l
  induction l with
  | nil => intro b _; cases b <;> exact noUrl_nil
  | cons c cs ih =>
    intro b hl
    have hcs := noUrl_tail hl
    cases b with
    | true =>
      cases hsp : isSpaceChar c with
      | true =>
        rw [show subEmailAux true (c :: cs) = c :: subEmailAux false cs by
          simp [subEmailAux, hsp]]
        exact noUrl_cons c _ (space_ne_hw hsp).1 (space_ne_hw hsp).2 (ih false hcs)
      | false =>
        rw [show subEmailAux true (c :: cs) = subEmailAux true cs by simp [subEmailAux, hsp]]
        exact ih true hcs
    | false =>
      cases he : emailMatch (c :: cs) with
      | true =>
        rw [show subEmailAux false (c :: cs)
            = 'E' :: 'M' :: 'A' :: 'I' :: 'L' :: subEmailAux true cs by simp [subEmailAux, he]]
        apply noUrl_cons 'E' _ (by decide) (by decide)
        apply noUrl_cons 'M' _ (by decide) (by decide)
        apply noUrl_cons 'A' _ (by decide) (by decide)
        apply noUrl_cons 'I' _ (by decide) (by decide)
        apply noUrl_cons 'L' _ (by decide) (by decide)
        exact ih true hcs
      | false =>
        rw [show subEmailAux false (c :: cs) = c :: subEmailAux false cs by
          simp [subEmailAux, he]]
        intro t ht
        rcases List.suffix_cons_iff.mp ht with rfl | ht
        · rw [← Bool.not_eq_true]
          intro habs
          have htr := urlStart_transfer (subEmailAux false) (fun _ => True)
            (fun d cs₀ r _ hf hd => by
              obtain ⟨cs₁, h1, h2⟩ := subEmailAux_reflect hf
                (by rcases hd with rfl | rfl | rfl <;> decide)
              exact ⟨cs₁, h1, h2, trivial⟩)
            (fun cs₀ _ hh => headNonspace_subEmailAux cs₀ hh)
            c cs trivial habs
          have hfalse := hl (c :: cs) (List.suffix_refl _)
          rw [htr] at hfalse
          cases hfalse
        · exact ih false hcs t ht

lemma noUrl_subNumAux : ∀ (l : List Char) (b : Bool), noUrl l → noUrl (subNumAux b l) := by
  intro l
  induction l with
  | nil => intro b _; cases b <;> exact noUrl_nil
  | cons c cs ih =>
    intro b hl
    have hcs := noUrl_tail hl
    cases b with
    | true =>
      cases hdig : c.isDigit with
      | true =>
        rw [show subNumAux true (c :: cs) = subNumAux true cs by simp [subNumAux, hdig]]
        exact ih true hcs
      | false =>
        rw [show subNumAux true (c :: cs) = c :: subNumAux false cs by simp [subNumAux, hdig]]
        intro t ht
        rcases List.suffix_cons_iff.mp ht with rfl | ht
        · rw [← Bool.not_eq_true]
          intro habs
          have htr := urlStart_transfer (subNumAux false) (fun _ => True)
            (fun d cs₀ r _ hf hd => by
              obtain ⟨cs₁, h1, h2⟩ := subNumAux_reflect hf
                (by rcases hd with rfl | rfl | rfl <;> decide)
              exact ⟨cs₁, h1, h2, trivial⟩)
            (fun cs₀ _ hh => headNonspace_subNumAux cs₀ hh)
            c cs trivial habs
          have hfalse := hl (c :: cs) (List.suffix_refl _)
          rw [htr] at hfalse
          cases hfalse
        · exact ih false hcs t ht
    | false =>
      cases hdig : c.isDigit with
      | true =>
        rw [show subNumAux false (c :: cs)
            = 'N' :: 'U' :: 'M' :: 'B' :: 'E' :: 'R' :: subNumAux true cs by
          simp [subNumAux, hdig]]
        apply noUrl_cons 'N' _ (by decide) (by decide)
        apply noUrl_cons 'U' _ (by decide) (by decide)
        apply noUrl_cons 'M' _ (by decide) (by decide)
        apply noUrl_cons 'B' _ (by decide) (by decide)
        apply noUrl_cons 'E' _ (by decide) (by decide)
        apply noUrl_cons 'R' _ (by decide) (by decide)
        exact ih true hcs
      | false =>
        rw [show subNumAux false (c :: cs) = c :: subNumAux false cs by simp [subNumAux, hdig]]
        intro t ht
        rcases List.suffix_cons_iff.mp ht with rfl | ht
        · rw [← Bool.not_eq_true]
          intro habs
          have htr := urlStart_transfer (subNumAux false) (fun _ => True)
            (fun d cs₀ r _ hf hd => by
              obtain ⟨cs₁, h1, h2⟩ := subNumAux_reflect hf
                (by rcases hd with rfl | rfl | rfl <;> decide)
              exact ⟨cs₁, h1, h2, trivial⟩)
            (fun cs₀ _ hh => headNonspace_subNumAux cs₀ hh)
            c cs trivial habs
          have hfalse := hl (c :: cs) (List.suffix_refl _)
          rw [htr] at hfalse
          cases hfalse
        · exact ih false hcs t ht

lemma noUrl_subPunct : ∀ l : List Char, noUrl l → noUrl (subPunct l) := by
  intro l
  induction l with
  | nil => intro _; exact noUrl_nil
  | cons c cs ih =>
    intro hl
    have hcs := noUrl_tail hl
    rw [show subPunct (c :: cs)
        = (if isWordChar c || isSpaceChar c then c else ' ') :: subPunct cs from rfl]
    by_cases hc : isWordChar c || isSpaceChar c
    · rw [if_pos hc]
      intro t ht
      rcases List.suffix_cons_iff.mp ht with rfl | ht
      · rw [← Bool.not_eq_true]
        intro habs
        have htr := urlStart_transfer subPunct (fun _ => True)
          (fun d cs₀ r _ hf hd => by
            obtain ⟨cs₁, h1, h2⟩ := subPunct_reflect hf
              (by rcases hd with rfl | rfl | rfl <;> decide)
            exact ⟨cs₁, h1, h2, trivial⟩)
          (fun cs₀ _ hh => headNonspace_subPunct cs₀ hh)
          c cs trivial habs
        have hfalse := hl (c :: cs) (List.suffix_refl _)
        rw [htr] at hfalse
        cases hfalse
      · exact ih hcs t ht
    · rw [if_neg hc]
      exact noUrl_cons ' ' _ (by decide) (by decide) (ih hcs)

lemma noUrl_collapseWsAux : ∀ (l : List Char) (b : Bool), noUrl l → noUrl (collapseWsAux b l) := by
  intro l
  induction l with
  | nil => intro b _; cases b <;> exact noUrl_nil
  | cons c cs ih =>
    intro b hl
    have hcs := noUrl_tail hl
    have whole : noUrl (c :: collapseWsAux false cs) := by
      intro t ht
      rcases List.suffix_cons_iff.mp ht with rfl | ht
      · rw [← Bool.not_eq_true]
        intro habs
        have htr := urlStart_transfer (collapseWsAux false) (fun _ => True)
          (fun d cs₀ r _ hf hd => by
            obtain ⟨cs₁, h1, h2⟩ := collapseWsAux_reflect hf
              (by rcases hd with rfl | rfl | rfl <;> decide)
            exact ⟨cs₁, h1, h2, trivial⟩)
          (fun cs₀ _ hh => headNonspace_collapseWsAux cs₀ hh)
          c cs trivial habs
        have hfalse := hl (c :: cs) (List.suffix_refl _)
        rw [htr] at hfalse
        cases hfalse
      · exact ih false hcs t ht
    cases b with
    | true =>
      cases hsp : isSpaceChar c with
      | true =>
        rw [show collapseWsAux true (c :: cs) = collapseWsAux true cs by
          simp [collapseWsAux, hsp]]
        exact ih true hcs
      | false =>
        rw [show collapseWsAux true (c :: cs) = c :: collapseWsAux false cs by
          simp [collapseWsAux, hsp]]
        exact whole
    | false =>
      cases hsp : isSpaceChar c with
      | true =>
        rw [show collapseWsAux false (c :: cs) = ' ' :: collapseWsAux true cs by
          simp [collapseWsAux, hsp]]
        exact noUrl_cons ' ' _ (by decide) (by decide) (ih true hcs)
      | false =>
        rw [show collapseWsAux false (c :: cs) = c :: collapseWsAux false cs by
          simp [collapseWsAux, hsp]]
        exact whole

lemma urlStart_append {t r : List Char} (h : urlStart t = true) :
    urlStart (t ++ r) = true := by
  unfold urlStart at h ⊢
  rcases (Bool.or_eq_true _ _).mp h with h1 | h1 <;>
    rw [Bool.and_eq_true, decide_eq_true_eq] at h1
  · obtain ⟨ht, hh⟩ := h1
    have hne : t.drop 4 ≠ [] := by
      intro he
      rw [he] at hh
      simp [headNonspace] at hh
    have hlen : 4 < t.length := by
      by_contra hlen
      push_neg at hlen
      exact hne (List.drop_eq_nil_iff.mpr hlen)
    apply (Bool.or_eq_true _ _).mpr
    left
    rw [Bool.and_eq_true, decide_eq_true_eq]
    refine ⟨?_, ?_⟩
    · rw [List.take_append_of_le_length (by omega), ht]
    · rw [List.drop_append_of_le_length (by omega)]
      cases hd : t.drop 4 with
      | nil => exact absurd hd hne
      | cons d ds =>
        rw [hd] at hh
        exact hh
  · obtain ⟨ht, hh⟩ := h1
    have hne : t.drop 3 ≠ [] := by
      intro he
      rw [he] at hh
      simp [headNonspace] at hh
    have hlen : 3 < t.length := by
      by_contra hlen
      push_neg at hlen
      exact hne (List.drop_eq_nil_iff.mpr hlen)
    apply (Bool.or_eq_true _ _).mpr
    right
    rw [Bool.and_eq_true, decide_eq_true_eq]
    refine ⟨?_, ?_⟩
    · rw [List.take_append_of_le_length (by omega), ht]
    · rw [List.drop_append_of_le_length (by omega)]
      cases hd : t.drop 3 with
      | nil => exact absurd hd hne
      | cons d ds =>
        rw [hd] at hh
        exact hh

lemma noUrl_stripBoth (l : List Char) (hl : noUrl l) : noUrl (stripBoth l) := by
  intro t ht
  obtain ⟨r, hr⟩ := stripBoth_prefix_dropWhile l
  obtain ⟨u, hu⟩ := ht
  rw [← Bool.not_eq_true]
  intro habs
  have h2 : urlStart (t ++ r) = true := urlStart_append habs
  have hsuff : (t ++ r) <:+ l := by
    have hs : (t ++ r) <:+ (stripBoth l ++ r) := ⟨u, by rw [← List.append_assoc, hu]⟩
    rw [hr] at hs
    exact hs.trans (List.dropWhile_suffix isSpaceChar)
  have := hl (t ++ r) hsuff
  rw [h2] at this
  cases this

/-- After one full pass of the normalizer no suffix matches the URL
pattern again. -/
lemma preprocessList_noUrl (l : List Char) : noUrl (preprocessList l) := by
  apply noUrl_stripBoth
  apply noUrl_collapseWsAux
  apply noUrl_subPunct
  apply noUrl_subNumAux
  apply noUrl_subEmailAux
  exact noUrl_subUrlAux _ false

/-! ### Character-level invariants established by one full pass -/

/-- The uppercase letters that the three substitutions can insert. -/
def sentinelChars : List Char := ['U', 'R', 'L', 'E', 'M', 'A', 'I', 'N', 'B']

lemma mem_subUrlAux (b : Bool) (l : List Char) (c : Char) (h : c ∈ subUrlAux b l) :
    c ∈ l ∨ c ∈ (['U', 'R', 'L'] : List Char) := by
  induction l generalizing b with
  | nil => cases b <;> simp [subUrlAux] at h
  | cons d ds ih =>
    have lift : c ∈ subUrlAux true ds ∨ c ∈ subUrlAux false ds →
        c ∈ d :: ds ∨ c ∈ (['U', 'R', 'L'] : List Char) := by
      intro hc
      rcases hc with hc | hc
      all_goals
        rcases (by first | exact ih true hc | exact ih false hc :
            c ∈ ds ∨ c ∈ (['U', 'R', 'L'] : List Char)) with hm | hs
      · exact Or.inl (List.mem_cons_of_mem d hm)
      · exact Or.inr hs
      · exact Or.inl (List.mem_cons_of_mem d hm)
      · exact Or.inr hs
    cases b with
    | true =>
      cases hsp : isSpaceChar d with
      | true =>
        rw [show subUrlAux true (d :: ds) = d :: subUrlAux false ds by
          simp [subUrlAux, hsp]] at h
        rcases List.mem_cons.mp h with rfl | h
        · exact Or.inl (List.mem_cons_self _ _)
        · exact lift (Or.inr h)
      | false =>
        rw [show subUrlAux true (d :: ds) = subUrlAux true ds by simp [subUrlAux, hsp]] at h
        exact lift (Or.inl h)
    | false =>
      cases hu : urlStart (d :: ds) with
      | true =>
        rw [show subUrlAux false (d :: ds) = 'U' :: 'R' :: 'L' :: subUrlAux true ds by
          simp [subUrlAux, hu]] at h
        rcases List.mem_cons.mp h with rfl | h
        · exact Or.inr (by decide)
        rcases List.mem_cons.mp h with rfl | h
        · exact Or.inr (by decide)
        rcases List.mem_cons.mp h with rfl | h
        · exact Or.inr (by decide)
        exact lift (Or.inl h)
      | false =>
        rw [show subUrlAux false (d :: ds) = d :: subUrlAux false ds by
          simp [subUrlAux, hu]] at h
        rcases List.mem_cons.mp h with rfl | h
        · exact Or.inl (List.mem_cons_self _ _)
        · exact lift (Or.inr h)

lemma mem_subEmailAux (b : Bool) (l : List Char) (c : Char) (h : c ∈ subEmailAux b l) :
    c ∈ l ∨ c ∈ (['E', 'M', 'A', 'I', 'L'] : List Char) := by
  induction l generalizing b with
  | nil => cases b <;> simp [subEmailAux] at h
  | cons d ds ih =>
    have lift : c ∈ subEmailAux true ds ∨ c ∈ subEmailAux false ds →
        c ∈ d :: ds ∨ c ∈ (['E', 'M', 'A', 'I', 'L'] : List Char) := by
      intro hc
      rcases hc with hc | hc
      all_goals
        rcases (by first | exact ih true hc | exact ih false hc :
            c ∈ ds ∨ c ∈ (['E', 'M', 'A', 'I', 'L'] : List Char)) with hm | hs
      · exact Or.inl (List.mem_cons_of_mem d hm)
      · exact Or.inr hs
      · exact Or.inl (List.mem_cons_of_mem d hm)
      · exact Or.inr hs
    cases b with
    | true =>
      cases hsp : isSpaceChar d with
      | true =>
        rw [show subEmailAux true (d :: ds) = d :: subEmailAux false ds by
          simp [subEmailAux, hsp]] at h
        rcases List.mem_cons.mp h with rfl | h
        · exact Or.inl (List.mem_cons_self _ _)
        · exact lift (Or.inr h)
      | false =>
        rw [show subEmailAux true (d :: ds) = subEmailAux true ds by
          simp [subEmailAux, hsp]] at h
        exact lift (Or.inl h)
    | false =>
      cases he : emailMatch (d :: ds) with
      | true =>
        rw [show subEmailAux false (d :: ds)
            = 'E' :: 'M' :: 'A' :: 'I' :: 'L' :: subEmailAux true ds by
          simp [subEmailAux, he]] at h
        rcases List.mem_cons.mp h with rfl | h
        · exact Or.inr (by decide)
        rcases List.mem_cons.mp h with rfl | h
        · exact Or.inr (by decide)
        rcases List.mem_cons.mp h with rfl | h
        · exact Or.inr (by decide)
        rcases List.mem_cons.mp h with rfl | h
        · exact Or.inr (by decide)
        rcases List.mem_cons.mp h with rfl | h
        · exact Or.inr (by decide)
        exact lift (Or.inl h)
      | false =>
        rw [show subEmailAux false (d :: ds) = d :: subEmailAux false ds by
          simp [subEmailAux, he]] at h
        rcases List.mem_cons.mp h with rfl | h
        · exact Or.inl (List.mem_cons_self _ _)
        · exact lift (Or.inr h)

lemma mem_subNumAux (b : Bool) (l : List Char) (c : Char) (h : c ∈ subNumAux b l) :
    c ∈ l ∨ c ∈ (['N', 'U', 'M', 'B', 'E', 'R'] : List Char) := by
  induction l generalizing b with
  | nil => cases b <;> simp [subNumAux] at h
  | cons d ds ih =>
    have lift : c ∈ subNumAux true ds ∨ c ∈ subNumAux false ds →
        c ∈ d :: ds ∨ c ∈ (['N', 'U', 'M', 'B', 'E', 'R'] : List Char) := by
      intro hc
      rcases hc with hc | hc
      all_goals
        rcases (by first | exact ih true hc | exact ih false hc :
            c ∈ ds ∨ c ∈ (['N', 'U', 'M', 'B', 'E', 'R'] : List Char)) with hm | hs
      · exact Or.inl (List.mem_cons_of_mem d hm)
      · exact Or.inr hs
      · exact Or.inl (List.mem_cons_of_mem d hm)
      · exact Or.inr hs
    cases b with
    | true =>
      cases hdig : d.isDigit with
      | true =>
        rw [show subNumAux true (d :: ds) = subNumAux true ds by simp [subNumAux, hdig]] at h
        exact lift (Or.inl h)
      | false =>
        rw [show subNumAux true (d :: ds) = d :: subNumAux false ds by
          simp [subNumAux, hdig]] at h
        rcases List.mem_cons.mp h with rfl | h
        · exact Or.inl (List.mem_cons_self _ _)
        · exact lift (Or.inr h)
    | false =>
      cases hdig : d.isDigit with
      | true =>
        rw [show subNumAux false (d :: ds)
            = 'N' :: 'U' :: 'M' :: 'B' :: 'E' :: 'R' :: subNumAux true ds by
          simp [subNumAux, hdig]] at h
        rcases List.mem_cons.mp h with rfl | h
        · exact Or.inr (by decide)
        rcases List.mem_cons.mp h with rfl | h
        · exact Or.inr (by decide)
        rcases List.mem_cons.mp h with rfl | h
        · exact Or.inr (by decide)
        rcases List.mem_cons.mp h with rfl | h
        · exact Or.inr (by decide)
        rcases List.mem_cons.mp h with rfl | h
        · exact Or.inr (by decide)
        rcases List.mem_cons.mp h with rfl | h
        · exact Or.inr (by decide)
        exact lift (Or.inl h)
      | false =>
        rw [show subNumAux false (d :: ds) = d :: subNumAux false ds by
          simp [subNumAux, hdig]] at h
        rcases List.mem_cons.mp h with rfl | h
        · exact Or.inl (List.mem_cons_self _ _)
        · exact lift (Or.inr h)

lemma mem_subPunct_or (l : List Char) (c : Char) (h : c ∈ subPunct l) :
    c ∈ l ∨ c = ' ' := by
  obtain ⟨d, hd, rfl⟩ := List.mem_map.mp h
  by_cases hc : isWordChar d || isSpaceChar d
  · rw [if_pos hc]
    exact Or.inl hd
  · rw [if_neg hc]
    exact Or.inr rfl

lemma nodigit_subNumAux (b : Bool) (l : List Char) :
    ∀ c ∈ subNumAux b l, c.isDigit = false := by
  induction l generalizing b with
  | nil => cases b <;> simp [subNumAux]
  | cons d ds ih =>
    intro c h
    cases b with
    | true =>
      cases hdig : d.isDigit with
      | true =>
        rw [show subNumAux true (d :: ds) = subNumAux true ds by simp [subNumAux, hdig]] at h
        exact ih true c h
      | false =>
        rw [show subNumAux true (d :: ds) = d :: subNumAux false ds by
          simp [subNumAux, hdig]] at h
        rcases List.mem_cons.mp h with rfl | h
        · exact hdig
        · exact ih false c h
    | false =>
      cases hdig : d.isDigit with
      | true =>
        rw [show subNumAux false (d :: ds)
            = 'N' :: 'U' :: 'M' :: 'B' :: 'E' :: 'R' :: subNumAux true ds by
          simp [subNumAux, hdig]] at h
        rcases List.mem_cons.mp h with rfl | h
        · decide
        rcases List.mem_cons.mp h with rfl | h
        · decide
        rcases List.mem_cons.mp h with rfl | h
        · decide
        rcases List.mem_cons.mp h with rfl | h
        · decide
        rcases List.mem_cons.mp h with rfl | h
        · decide
        rcases List.mem_cons.mp h with rfl | h
        · decide
        exact ih true c h
      | false =>
        rw [show subNumAux false (d :: ds) = d :: subNumAux false ds by
          simp [subNumAux, hdig]] at h
        rcases List.mem_cons.mp h with rfl | h
        · exact hdig
        · exact ih false c h

/-! ### The combined invariants of a full pass output -/

lemma preprocessList_goodChar (l : List Char) :
    ∀ c ∈ preprocessList l, isWordChar c = true ∨ c = ' ' := by
  intro c hc
  have hc5 := (infixStripBoth _).mem hc
  rcases mem_collapseWsAux false _ c hc5 with ⟨hm, hs⟩ | he
  · rcases mem_subPunct _ c hm with hw | hsp
    · exact Or.inl hw
    · rw [hsp] at hs
      cases hs
  · exact Or.inr he

lemma preprocessList_chain (l : List Char) :
    List.Chain' (fun a b => ¬(a = ' ' ∧ b = ' ')) (preprocessList l) :=
  List.Chain'.infix (chain'_collapseWsAux false _) (infixStripBoth _)

lemma preprocessList_head (l : List Char) :
    ∀ c, (preprocessList l).head? = some c → isSpaceChar c = false :=
  fun c h => stripBoth_head _ c h

lemma preprocessList_getLast (l : List Char) :
    ∀ c, (preprocessList l).getLast? = some c → isSpaceChar c = false :=
  fun c h => stripBoth_getLast _ c h

lemma preprocessList_noDigit (l : List Char) :
    ∀ c ∈ preprocessList l, c.isDigit = false := by
  intro c hc
  have hc5 := (infixStripBoth _).mem hc
  rcases mem_collapseWsAux false _ c hc5 with ⟨hm, _⟩ | he
  · rcases mem_subPunct_or _ c hm with hn | he
    · exact nodigit_subNumAux false _ c hn
    · rw [he]
      decide
  · rw [he]
    decide

lemma url_chars_sentinel : ∀ c ∈ (['U', 'R', 'L'] : List Char), c ∈ sentinelChars := by
  decide

lemma email_chars_sentinel : ∀ c ∈ (['E', 'M', 'A', 'I', 'L'] : List Char), c ∈ sentinelChars := by
  decide

lemma number_chars_sentinel : ∀ c ∈ (['N', 'U', 'M', 'B', 'E', 'R'] : List Char), c ∈ sentinelChars := by
  decide

lemma preprocessList_sentinel (l : List Char) :
    ∀ c ∈ preprocessList l, c ∈ sentinelChars ∨ Char.toLower c = c := by
  intro c hc
  have hc5 := (infixStripBoth _).mem hc
  rcases mem_collapseWsAux false _ c hc5 with ⟨hm, _⟩ | he
  · rcases mem_subPunct_or _ c hm with hn | he
    · rcases mem_subNumAux false _ c hn with hem | hs
      · rcases mem_subEmailAux false _ c hem with hur | hs
        · rcases mem_subUrlAux false _ c hur with hmap | hs
          · obtain ⟨d, _, rfl⟩ := List.mem_map.mp hmap
            exact Or.inr (toLower_idem d)
          · exact Or.inl (url_chars_sentinel c hs)
        · exact Or.inl (email_chars_sentinel c hs)
      · exact Or.inl (number_chars_sentinel c hs)
    · rw [he]
      exact Or.inr (by decide)
  · rw [he]
    exact Or.inr (by decide)

/-! ### Each pass is the identity on text already in normal form -/

lemma subUrlAux_false_id (l : List Char) (h : noUrl l) : subUrlAux false l = l := by
  induction l with
  | nil => rfl
  | cons c cs ih =>
    have hu : urlStart (c :: cs) = false := h _ (List.suffix_refl _)
    rw [show subUrlAux false (c :: cs) = c :: subUrlAux false cs by simp [subUrlAux, hu],
      ih (noUrl_tail h)]

lemma subEmailAux_false_id (l : List Char) (h : ∀ c ∈ l, c ≠ '@') :
    subEmailAux false l = l := by
  induction l with
  | nil => rfl
  | cons c cs ih =>
    have he : emailMatch (c :: cs) = false := by
      rw [← Bool.not_eq_true]
      intro habs
      have hat : '@' ∈ ((((c :: cs).takeWhile fun d => !isSpaceChar d).drop 1).dropLast) :=
        List.elem_iff.mp habs
      have h1 : '@' ∈ (((c :: cs).takeWhile fun d => !isSpaceChar d).drop 1) :=
        (List.dropLast_sublist _).subset hat
      have h2 : '@' ∈ ((c :: cs).takeWhile fun d => !isSpaceChar d) :=
        List.drop_subset 1 _ h1
      have h3 : '@' ∈ c :: cs := (List.takeWhile_sublist _).subset h2
      exact h '@' h3 rfl
    rw [show subEmailAux false (c :: cs) = c :: subEmailAux false cs by simp [subEmailAux, he],
      ih fun d hd => h d (List.mem_cons_of_mem c hd)]

lemma subNumAux_false_id (l : List Char) (h : ∀ c ∈ l, c.isDigit = false) :
    subNumAux false l = l := by
  induction l with
  | nil => rfl
  | cons c cs ih =>
    have hdig : c.isDigit = false := h c (List.mem_cons_self c cs)
    rw [show subNumAux false (c :: cs) = c :: subNumAux false cs by simp [subNumAux, hdig],
      ih fun d hd => h d (List.mem_cons_of_mem c hd)]

lemma subPunct_id (l : List Char) (h : ∀ c ∈ l, isWordChar c = true ∨ c = ' ') :
    subPunct l = l := by
  induction l with
  | nil => rfl
  | cons c cs ih =>
    have hc : (isWordChar c || isSpaceChar c) = true := by
      rcases h c (List.mem_cons_self c cs) with hw | hs
      · rw [hw]
        rfl
      · rw [hs]
        decide
    rw [show subPunct (c :: cs)
        = (if isWordChar c || isSpaceChar c then c else ' ') :: subPunct cs from rfl,
      if_pos hc, ih fun d hd => h d (List.mem_cons_of_mem c hd)]

lemma collapseWsAux_id (l : List Char)
    (h1 : ∀ c ∈ l, isSpaceChar c = true → c = ' ')
    (h2 : List.Chain' (fun a b => ¬(a = ' ' ∧ b = ' ')) l) :
    collapseWsAux false l = l ∧
    ((∀ c, l.head? = some c → isSpaceChar c = false) → collapseWsAux true l = l) := by
  induction l with
  | nil => exact ⟨rfl, fun _ => rfl⟩
  | cons c cs ih =>
    have htail := ih (fun d hd => h1 d (List.mem_cons_of_mem c hd)) (List.Chain'.tail h2)
    constructor
    · cases hsp : isSpaceChar c with
      | false =>
        rw [show collapseWsAux false (c :: cs) = c :: collapseWsAux false cs by
          simp [collapseWsAux, hsp], htail.1]
      | true =>
        have hc : c = ' ' := h1 c (List.mem_cons_self c cs) hsp
        rw [show collapseWsAux false (c :: cs) = ' ' :: collapseWsAux true cs by
          simp [collapseWsAux, hsp], hc]
        rw [htail.2]
        intro d hd
        cases cs with
        | nil => simp at hd
        | cons e es =>
          rw [List.head?_cons, Option.some_inj] at hd
          have hrel := (List.chain'_cons.mp h2).1
          rw [← Bool.not_eq_true]
          intro hsp2
          have hmem : d ∈ c :: e :: es := hd ▸ List.mem_cons_of_mem c (List.mem_cons_self e es)
          have he2 : e = ' ' := by
            rw [hd]
            exact h1 d hmem hsp2
          rw [hc] at hrel
          exact hrel ⟨rfl, he2⟩
    · intro hhead
      have hsp : isSpaceChar c = false := hhead c rfl
      rw [show collapseWsAux true (c :: cs) = c :: collapseWsAux false cs by
        simp [collapseWsAux, hsp], htail.1]

lemma dropWhile_id_of_head (l : List Char)
    (h : ∀ c, l.head? = some c → isSpaceChar c = false) :
    l.dropWhile isSpaceChar = l := by
  cases l with
  | nil => rfl
  | cons c cs =>
    rw [List.dropWhile_cons, if_neg]
    rw [h c rfl]
    simp

lemma stripBoth_id (l : List Char)
    (hh : ∀ c, l.head? = some c → isSpaceChar c = false)
    (hl : ∀ c, l.getLast? = some c → isSpaceChar c = false) :
    stripBoth l = l := by
  unfold stripBoth
  rw [dropWhile_id_of_head l hh]
  rw [dropWhile_id_of_head l.reverse (fun c hc => hl c (by rwa [List.head?_reverse] at hc))]
  exact List.reverse_reverse l

/-! ### Lowercasing a normal-form text keeps it in normal form -/

lemma sentinel_lower_ne : ∀ c ∈ sentinelChars,
    Char.toLower c ≠ 't' ∧ Char.toLower c ≠ 'p' ∧ Char.toLower c ≠ 'w' ∧
    Char.toLower c ≠ 'h' := by
  decide

lemma map_toLower_reflect (t : List Char)
    (hsent : ∀ c ∈ t, c ∈ sentinelChars ∨ Char.toLower c = c) :
    ∀ d cs r, (cs <:+ t) → cs.map Char.toLower = d :: r →
      (d = 't' ∨ d = 'p' ∨ d = 'w') →
      ∃ cs₁, cs = d :: cs₁ ∧ r = cs₁.map Char.toLower ∧ cs₁ <:+ t := by
  intro d cs r hcs hf hd
  cases cs with
  | nil => simp at hf
  | cons c cs₁ =>
    rw [List.map_cons] at hf
    obtain ⟨hcd, hr⟩ := List.cons_eq_cons.mp hf
    have hct : c ∈ t := hcs.mem (List.mem_cons_self c cs₁)
    have hc : c = d := by
      rcases hsent c hct with hs | hs
      · exfalso
        obtain ⟨h1, h2, h3, _⟩ := sentinel_lower_ne c hs
        rcases hd with rfl | rfl | rfl
        · exact h1 hcd
        · exact h2 hcd
        · exact h3 hcd
      · rw [hs] at hcd
        exact hcd
    exact ⟨cs₁, by rw [hc], hr.symm, (List.suffix_cons c cs₁).trans hcs⟩

lemma noUrl_map_toLower (t : List Char) (hnourl : noUrl t)
    (hsent : ∀ c ∈ t, c ∈ sentinelChars ∨ Char.toLower c = c) :
    noUrl (t.map Char.toLower) := by
  intro u hu
  have he := List.suffix_iff_eq_drop.mp hu
  rw [List.length_map] at he
  obtain ⟨k, hk⟩ : ∃ k, u = (List.map Char.toLower t).drop k := ⟨_, he⟩
  have hdrop : u = (t.drop k).map Char.toLower := by
    rw [hk, List.map_drop]
  set u' := t.drop k with hu'
  have hsuf : u' <:+ t := List.drop_suffix _ t
  rw [← Bool.not_eq_true]
  intro habs
  rw [hdrop] at habs
  cases hcs : u' with
  | nil =>
    rw [hcs] at habs
    cases habs
  | cons c₀ u₁ =>
    rw [hcs, List.map_cons] at habs
    have hsuf1 : u₁ <:+ t := by
      rw [hcs] at hsuf
      exact (List.suffix_cons c₀ u₁).trans hsuf
    have htr := urlStart_transfer (List.map Char.toLower) (fun v => v <:+ t)
      (fun d cs r hP hf hd => map_toLower_reflect t hsent d cs r hP hf hd)
      (fun cs _ hh => headNonspace_map_toLower cs hh)
      (Char.toLower c₀) u₁ hsuf1 habs
    have hc₀ : c₀ ∈ t := by
      rw [hcs] at hsuf
      exact hsuf.mem (List.mem_cons_self c₀ u₁)
    have hstable : Char.toLower c₀ = c₀ := by
      rcases hsent c₀ hc₀ with hs | hs
      · exfalso
        obtain ⟨_, _, h3, h4⟩ := sentinel_lower_ne c₀ hs
        rcases urlStart_head htr with he | he
        · exact h4 he
        · exact h3 he
      · exact hs
    rw [hstable] at htr
    have := hnourl (c₀ :: u₁) (by rw [← hcs]; exact hsuf)
    rw [htr] at this
    cases this

/-! ### The second application of the normalizer only lowercases -/

/-- On a text satisfying all the invariants that one pass establishes,
the whole normalizer acts as plain lowercasing. -/
lemma preprocessList_of_normal (t : List Char)
    (hgood : ∀ c ∈ t, isWordChar c = true ∨ c = ' ')
    (hchain : List.Chain' (fun a b => ¬(a = ' ' ∧ b = ' ')) t)
    (hhead : ∀ c, t.head? = some c → isSpaceChar c = false)
    (hlast : ∀ c, t.getLast? = some c → isSpaceChar c = false)
    (hnourl : noUrl t)
    (hnodig : ∀ c ∈ t, c.isDigit = false)
    (hsent : ∀ c ∈ t, c ∈ sentinelChars ∨ Char.toLower c = c) :
    preprocessList t = t.map Char.toLower := by
  have hgoodm : ∀ c ∈ t.map Char.toLower, isWordChar c = true ∨ c = ' ' := by
    intro c hc
    obtain ⟨d, hd, rfl⟩ := List.mem_map.mp hc
    rcases hgood d hd with hw | hs
    · exact Or.inl (isWordChar_toLower d hw)
    · rw [hs]
      exact Or.inr (by decide)
  have hspm : ∀ c ∈ t.map Char.toLower, isSpaceChar c = true → c = ' ' := by
    intro c hc hsp
    rcases hgoodm c hc with hw | hs
    · rw [isSpaceChar_false_of_word c hw] at hsp
      cases hsp
    · exact hs
  have h1 : subUrlAux false (t.map Char.toLower) = t.map Char.toLower :=
    subUrlAux_false_id _ (noUrl_map_toLower t hnourl hsent)
  have h2 : subEmailAux false (t.map Char.toLower) = t.map Char.toLower := by
    apply subEmailAux_false_id
    intro c hc he
    rcases hgoodm c hc with hw | hs
    · rw [he] at hw
      exact absurd hw (by decide)
    · rw [he] at hs
      exact absurd hs (by decide)
  have h3 : subNumAux false (t.map Char.toLower) = t.map Char.toLower := by
    apply subNumAux_false_id
    intro c hc
    obtain ⟨d, hd, rfl⟩ := List.mem_map.mp hc
    rw [isDigit_toLower]
    exact hnodig d hd
  have h4 : subPunct (t.map Char.toLower) = t.map Char.toLower :=
    subPunct_id _ hgoodm
  have hchainm : List.Chain' (fun a b => ¬(a = ' ' ∧ b = ' ')) (t.map Char.toLower) := by
    rw [List.chain'_map]
    apply hchain.imp
    intro a b hab habs
    apply hab
    constructor
    · exact toLower_eq_nonletter a ' ' (by decide) habs.1
    · exact toLower_eq_nonletter b ' ' (by decide) habs.2
  have h5 : collapseWsAux false (t.map Char.toLower) = t.map Char.toLower :=
    (collapseWsAux_id _ hspm hchainm).1
  have h6 : stripBoth (t.map Char.toLower) = t.map Char.toLower := by
    apply stripBoth_id
    · intro c hc
      rw [List.head?_map] at hc
      cases hth : t.head? with
      | none =>
        rw [hth] at hc
        cases hc
      | some d =>
        rw [hth] at hc
        rw [show Option.map Char.toLower (some d) = some (Char.toLower d) from rfl,
          Option.some_inj] at hc
        rw [← hc, isSpaceChar_toLower]
        exact hhead d hth
    · intro c hc
      rw [List.getLast?_map] at hc
      cases hth : t.getLast? with
      | none =>
        rw [hth] at hc
        cases hc
      | some d =>
        rw [hth] at hc
        rw [show Option.map Char.toLower (some d) = some (Char.toLower d) from rfl,
          Option.some_inj] at hc
        rw [← hc, isSpaceChar_toLower]
        exact hlast d hth
  show stripBoth (collapseWs (subPunct (subNum (subEmail (subUrl (t.map Char.toLower)))))) = _
  unfold subUrl subEmail subNum collapseWs
  rw [h1, h2, h3, h4, h5, h6]

/-! ### Claim theorems for the normalizer idempotence claim -/

/-- Counterexample to C1 as stated: the input "0" normalizes to the
sentinel "NUMBER", whose second normalization lowercases it to
"number". -/
theorem C1_not_idempotent_counterexample :
    preprocess_text (preprocess_text "0") ≠ preprocess_text "0" := by
  decide

/-- C1 amended: the normalizer is idempotent up to the lowercasing of
its own uppercase sentinel tokens URL, EMAIL and NUMBER: a second
application of `preprocess_text` changes the first application's output
exactly by Python `str.lower`. -/
theorem C1_preprocess_idempotent_up_to_case (s : String) :
    preprocess_text (preprocess_text s) = pyLower (preprocess_text s) := by
  show (⟨preprocessList (preprocessList s.data)⟩ : String)
    = ⟨(preprocessList s.data).map Char.toLower⟩
  apply congrArg String.mk
  exact preprocessList_of_normal (preprocessList s.data)
    (preprocessList_goodChar s.data)
    (preprocessList_chain s.data)
    (preprocessList_head s.data)
    (preprocessList_getLast s.data)
    (preprocessList_noUrl s.data)
    (preprocessList_noDigit s.data)
    (preprocessList_sentinel s.data)

end PhishingGuard
